import Mathlib

/-!
Verification of the aggregation and period-bucketing core of the
wispr-flow-recap scripts (`scripts/daily-recap.js`, which contains the daily
and the weekly script, and `scripts/monthly-recap.js`).

The scripts are JavaScript; this file is a shallow embedding of the logic the
claims are about:

* Calendar dates are represented as day numbers (days since 1970-01-01, the
  Unix epoch, which was a Thursday).  `daysFromCivil` / `civilFromDays` are
  the standard civil-calendar conversions (Howard Hinnant's algorithms, the
  same arithmetic V8 uses internally for `Date` component handling).  All
  divisions are by positive literals, so Lean's `Int` division (Euclidean)
  coincides with floor division.
* A JavaScript `Date` holds an instant; the scripts build dates from local
  civil components and serialize them with `toISOString()`, which converts to
  UTC.  The environment's UTC offset (minutes east of Greenwich, as an
  `Int`) is threaded through explicitly as a parameter `o`; `toISOString`
  applied to a `Date` holding local noon / local midnight of civil day `n`
  yields the civil date `isoDateOfLocalNoon o n` / `isoDateOfLocalMidnight
  o n`.
* JavaScript plain objects used as dictionaries are modelled as
  insertion-ordered association lists, with `jsEntries` reproducing the
  `Object.entries` ordering: integer-index keys first in ascending numeric
  order, then string keys in insertion order.
* `Array.prototype.sort` with a consistent comparator is (per ES2019) a
  stable sort; it is modelled by a stable insertion sort.
-/

set_option maxRecDepth 40000

namespace WisprRecap

/-! ## Civil calendar arithmetic -/

/-- Day number (days since 1970-01-01) of a civil date, for human months
`1 ≤ m ≤ 12`.  Hinnant's `days_from_civil`; divisions are by positive
literals, so `/` is floor division. -/
def daysFromCivil (y m d : Int) : Int :=
  let y2 := y - (if m ≤ 2 then 1 else 0)
  let era := y2 / 400
  let yoe := y2 - era * 400
  let mp := if 2 < m then m - 3 else m + 9
  let doy := (153 * mp + 2) / 5 + d - 1
  let doe := yoe * 365 + yoe / 4 - yoe / 100 + doy
  era * 146097 + doe - 719468

/-- The civil date within a 400-year era from a day-of-era in
`[0, 146096]`: the year component is relative to the era start.  The inner
part of Hinnant's `civil_from_days`. -/
def civilOfDoe (doe : Int) : Int × Int × Int :=
  let yoe := (doe - doe / 1460 + doe / 36524 - doe / 146096) / 365
  let doy := doe - (365 * yoe + yoe / 4 - yoe / 100)
  let mp := (5 * doy + 2) / 153
  let dd := doy - (153 * mp + 2) / 5 + 1
  let mm := if mp < 10 then mp + 3 else mp - 9
  (yoe + (if mm ≤ 2 then 1 else 0), mm, dd)

/-- Civil date `(year, month, day)` of a day number.  Hinnant's
`civil_from_days`: split the day number into a 400-year era and a day of
era, convert the day of era, and shift the year back by the era. -/
def civilFromDays (n : Int) : Int × Int × Int :=
  let z := n + 719468
  let era := z / 146097
  let doe := z - era * 146097
  let c := civilOfDoe doe
  (c.1 + era * 400, c.2.1, c.2.2)

/-- `Date.prototype.getDay()` for a `Date` holding (any time of) local civil
day `n`: 0 = Sunday, …, 6 = Saturday.  1970-01-01 was a Thursday (= 4). -/
def jsWeekday (n : Int) : Int := (n + 4) % 7

/-- `new Date(year, monthIndex, day)` (local components, 0-based month) as a
civil day number: ES `MakeDay`, which normalizes month overflow with floor
division and lets the day roll freely. -/
def jsMakeDay (y mIdx d : Int) : Int :=
  daysFromCivil (y + mIdx / 12) (mIdx % 12 + 1) 1 + (d - 1)

/-- Civil date (as a day number) produced by `toISOString().slice(0, 10)` on
a `Date` holding local noon of civil day `n`, in an environment whose UTC
offset is `o` minutes east. -/
def isoDateOfLocalNoon (o n : Int) : Int := (n * 1440 + 720 - o) / 1440

/-- Civil date (as a day number) produced by `toISOString().slice(0, 10)` on
a `Date` holding local midnight of civil day `n`, in an environment whose UTC
offset is `o` minutes east. -/
def isoDateOfLocalMidnight (o n : Int) : Int := (n * 1440 - o) / 1440

/-! ## Rendering and parsing of date strings -/

def pad2 (n : Nat) : String := if n < 10 then "0" ++ toString n else toString n

def pad4 (n : Nat) : String :=
  if n < 10 then "000" ++ toString n
  else if n < 100 then "00" ++ toString n
  else if n < 1000 then "0" ++ toString n
  else toString n

/-- The `YYYY-MM-DD` rendering of a day number, as produced by
`toISOString().slice(0, 10)` (for years in `[1, 9999]`). -/
def renderIsoDate (n : Int) : String :=
  let c := civilFromDays n
  pad4 c.1.toNat ++ "-" ++ pad2 c.2.1.toNat ++ "-" ++ pad2 c.2.2.toNat

def digitVal (c : Char) : Option Nat :=
  if c.isDigit then some (c.toNat - 48) else none

/-- Parse a `YYYY-MM-DD` string to a day number; `none` models V8 producing
an Invalid Date (the scripts feed such strings to `new Date(s + "T12:00:00")`,
which parses them as local time). -/
def parseIsoDate (s : String) : Option Int :=
  match s.toList with
  | [y1, y2, y3, y4, s1, m1, m2, s2, d1, d2] => do
    let a ← digitVal y1
    let b ← digitVal y2
    let c ← digitVal y3
    let d ← digitVal y4
    let e ← digitVal m1
    let f ← digitVal m2
    let g ← digitVal d1
    let h ← digitVal d2
    if s1 = '-' && s2 = '-' then
      let y := 1000 * a + 100 * b + 10 * c + d
      let mo := 10 * e + f
      let dd := 10 * g + h
      if 1 ≤ mo && mo ≤ 12 && 1 ≤ dd && dd ≤ 31 then
        some (daysFromCivil y mo dd)
      else none
    else none
  | _ => none

/-- Character-level string splitting, as JavaScript's `String.prototype.split`
with a single-character separator. -/
def splitOnChar (c : Char) : List Char → List (List Char)
  | [] => [[]]
  | x :: xs =>
    let r := splitOnChar c xs
    if x = c then [] :: r
    else
      match r with
      | [] => [[x]]
      | h :: t => (x :: h) :: t

/-- `s.split(sep)` for a one-character separator `sep`. -/
def jsSplit (c : Char) (s : String) : List String :=
  (splitOnChar c s.toList).map (fun cs => String.mk cs)

/-- `Number(s)` restricted to the digit strings the scripts feed it; `none`
models `NaN`.  (`Number("")` is `0` in JavaScript.) -/
def jsNumber (s : String) : Option Int :=
  if s = "" then some 0
  else if s.toList.all Char.isDigit then
    some (s.toList.foldl (fun acc c => 10 * acc + (c.toNat - 48)) 0)
  else none

/-! ## Period resolvers -/

/-- Monday used by `getWeekRange` for a reference civil day `n`: the source
computes `day = d.getDay(); diffToMon = day === 0 ? -6 : 1 - day` and adds it
to the date. -/
def mondayOfRef (n : Int) : Int :=
  let day := jsWeekday n
  let diffToMon := if day = 0 then -6 else 1 - day
  n + diffToMon

/-- `getWeekRange` of `scripts/daily-recap.js` (weekly part): builds a `Date`
at local noon of the reference date, walks back to Monday with `setDate`, and
serializes Monday and Monday + 6 with `toISOString().slice(0, 10)`.  `none`
models the `RangeError` thrown by `toISOString` on an Invalid Date. -/
def getWeekRange (o : Int) (refDate : String) : Option (String × String) :=
  (parseIsoDate refDate).map (fun n =>
    let monday := mondayOfRef n
    let sunday := monday + 6
    (renderIsoDate (isoDateOfLocalNoon o monday),
     renderIsoDate (isoDateOfLocalNoon o sunday)))

def monthLongName (m : Int) : String :=
  if m = 1 then "January" else if m = 2 then "February" else if m = 3 then "March"
  else if m = 4 then "April" else if m = 5 then "May" else if m = 6 then "June"
  else if m = 7 then "July" else if m = 8 then "August" else if m = 9 then "September"
  else if m = 10 then "October" else if m = 11 then "November" else if m = 12 then "December"
  else ""

def monthShortName (m : Int) : String :=
  if m = 1 then "Jan" else if m = 2 then "Feb" else if m = 3 then "Mar"
  else if m = 4 then "Apr" else if m = 5 then "May" else if m = 6 then "Jun"
  else if m = 7 then "Jul" else if m = 8 then "Aug" else if m = 9 then "Sep"
  else if m = 10 then "Oct" else if m = 11 then "Nov" else if m = 12 then "Dec"
  else ""

structure MonthRange where
  start : String
  endDate : String
  year : Int
  month : Int
  label : String
  shortLabel : String
  daysInMonth : Int
  deriving Repr, DecidableEq

/-- `getMonthRange` of `scripts/monthly-recap.js`: splits `"YYYY-MM"` on
`"-"`, builds `new Date(year, month - 1, 1)` and `new Date(year, month, 0)`
(both at local midnight) and serializes them with
`toISOString().slice(0, 10)`; `daysInMonth` is `lastDay.getDate()` (a local
component, hence offset-independent); the labels come from
`toLocaleDateString("en-US", ...)` on `firstDay` (also local components). -/
def getMonthRange (o : Int) (yearMonth : String) : Option MonthRange :=
  match (jsSplit '-' yearMonth).map jsNumber with
  | y? :: m? :: _ => do
    let y ← y?
    let m ← m?
    let firstDay := jsMakeDay y (m - 1) 1
    let lastDay := jsMakeDay y m 0
    let firstCivil := civilFromDays firstDay
    some { start := renderIsoDate (isoDateOfLocalMidnight o firstDay),
           endDate := renderIsoDate (isoDateOfLocalMidnight o lastDay),
           year := y,
           month := m,
           label := monthLongName firstCivil.2.1 ++ " " ++ toString firstCivil.1,
           shortLabel := monthShortName firstCivil.2.1,
           daysInMonth := (civilFromDays lastDay).2.2 }
  | _ => none

/-! ## Claims C3 and C4: period boundaries -/

lemma mondayOfRef_spec (n : Int) :
    jsWeekday (mondayOfRef n) = 1 ∧ mondayOfRef n ≤ n ∧ n ≤ mondayOfRef n + 6 ∧
    (jsWeekday n = 0 → mondayOfRef n = n - 6) := by
  unfold mondayOfRef jsWeekday
  by_cases h0 : (n + 4) % 7 = 0 <;> simp [h0] <;> omega

lemma isoDateOfLocalNoon_id {o : Int} (ho1 : -720 < o) (ho2 : o ≤ 720) (d : Int) :
    isoDateOfLocalNoon o d = d := by
  unfold isoDateOfLocalNoon; omega

/-- In any environment whose UTC offset lies in (-12 h, +12 h],
`getWeekRange` yields `start` = the Monday of the week containing the
reference date (Sunday being treated as 6 days after Monday, not as a week
start) and `end` = start + 6 days.  Offsets outside that band break this:
see `getWeekRange_extreme_offset_bug`. -/
theorem getWeekRange_monday_start (o : Int) (refDate : String) (n : Int)
    (ho1 : -720 < o) (ho2 : o ≤ 720) (hp : parseIsoDate refDate = some n) :
    getWeekRange o refDate =
      some (renderIsoDate (mondayOfRef n), renderIsoDate (mondayOfRef n + 6)) ∧
    jsWeekday (mondayOfRef n) = 1 ∧
    mondayOfRef n ≤ n ∧ n ≤ mondayOfRef n + 6 ∧
    (jsWeekday n = 0 → mondayOfRef n = n - 6) := by
  refine ⟨?_, mondayOfRef_spec n⟩
  unfold getWeekRange
  rw [hp]
  simp [isoDateOfLocalNoon_id ho1 ho2]

/-- Witness for C3 at the spec's concrete vector: reference 2026-01-01 (a
Thursday, day number 20454) yields Monday 2025-12-29 through Sunday
2026-01-04. -/
theorem getWeekRange_monday_start_witness :
    (-720 < (0 : Int) ∧ (0 : Int) ≤ 720 ∧ parseIsoDate "2026-01-01" = some 20454) ∧
    getWeekRange 0 "2026-01-01" = some ("2025-12-29", "2026-01-04") ∧
    jsWeekday (mondayOfRef 20454) = 1 ∧ jsWeekday 20454 = 4 := by
  have h := getWeekRange_monday_start 0 "2026-01-01" 20454 (by decide) (by decide) (by decide)
  refine ⟨⟨by decide, by decide, by decide⟩, ?_, h.2.1, by decide⟩
  rw [h.1]; decide

/-- C3 (code bug): `getWeekRange` anchors the reference at local noon
(`refDate + "T12:00:00"`) but serializes the boundary `Date`s with the
UTC-based `toISOString()`.  In the real time zones east of UTC+12 — Chatham
UTC+12:45 (offset 765), Samoa/Tonga UTC+13:00 (780), Kiribati Line Islands
UTC+14:00 (840) — local noon falls on the previous UTC day, so the week of
2026-01-01 resolves to 2025-12-28 … 2026-01-03, a Sunday through Saturday,
one day before the claimed Monday 2025-12-29 … Sunday 2026-01-04; at
UTC−12:00 (offset −720) it resolves one day late.  For offsets strictly
inside (−720, 720] the Monday week is correct
(`getWeekRange_monday_start`). -/
theorem getWeekRange_extreme_offset_bug :
    getWeekRange 765 "2026-01-01" = some ("2025-12-28", "2026-01-03") ∧
    getWeekRange 780 "2026-01-01" = some ("2025-12-28", "2026-01-03") ∧
    getWeekRange 840 "2026-01-01" = some ("2025-12-28", "2026-01-03") ∧
    getWeekRange (-720) "2026-01-01" = some ("2025-12-30", "2026-01-05") ∧
    (parseIsoDate "2025-12-28").map jsWeekday = some 0 ∧
    (parseIsoDate "2025-12-30").map jsWeekday = some 2 ∧
    getWeekRange 0 "2026-01-01" = some ("2025-12-29", "2026-01-04") ∧
    (parseIsoDate "2025-12-29").map jsWeekday = some 1 :=
  ⟨by decide, by decide, by decide, by decide, by decide, by decide, by decide,
   by decide⟩

/-- C4 (code bug): `getMonthRange` builds its boundary `Date`s at local
midnight and serializes them with the UTC-based `toISOString()`.  In any
environment east of UTC (offset > 0, e.g. +60 = Europe/Paris in winter) the
resolved month range is shifted one day early: reference 2024-02 yields
start = 2024-01-31 and end = 2024-02-28 instead of the first/last day of
February.  With offset ≤ 0 (UTC, the Americas) the range is correct, and the
claim's 2024-02-15 reference resolves identically to 2024-02 (the extra
component is ignored by the destructuring). -/
theorem getMonthRange_positive_offset_bug :
    getMonthRange 60 "2024-02" =
      some { start := "2024-01-31", endDate := "2024-02-28", year := 2024, month := 2,
             label := "February 2024", shortLabel := "Feb", daysInMonth := 29 } ∧
    getMonthRange 60 "2024-02-15" = getMonthRange 60 "2024-02" ∧
    getMonthRange 0 "2024-02" =
      some { start := "2024-02-01", endDate := "2024-02-29", year := 2024, month := 2,
             label := "February 2024", shortLabel := "Feb", daysInMonth := 29 } ∧
    getMonthRange 0 "2024-02-15" = getMonthRange 0 "2024-02" := by
  exact ⟨by decide, by decide, by decide, by decide⟩

/-! ## JavaScript plain objects as dictionaries

A plain object used as a dictionary is an insertion-ordered association
list.  `objUpd k f init` models the ubiquitous script pattern
`if (!m[k]) m[k] = init0; <mutate m[k]>`: an existing binding is updated in
place, a fresh key is appended at the end of the property order (`init` is
the value of a fresh bucket after the mutation). -/

section ObjectModel

variable {κ V : Type} [DecidableEq κ]

def objUpd (k : κ) (f : V → V) (init : V) : List (κ × V) → List (κ × V)
  | [] => [(k, init)]
  | (k2, v) :: t => if k2 = k then (k2, f v) :: t else (k2, v) :: objUpd k f init t

/-- `m[k]` (lookup by key, first binding wins). -/
def lookupV (k : κ) : List (κ × V) → Option V
  | [] => none
  | (k2, v) :: t => if k2 = k then some v else lookupV k t

/-- The property keys of the object, in insertion order. -/
def keysOf (m : List (κ × V)) : List κ := m.map Prod.fst

lemma lookupV_objUpd_self (k : κ) (f : V → V) (i : V) (m : List (κ × V)) :
    lookupV k (objUpd k f i m) = some ((lookupV k m).elim i f) := by
  induction m with
  | nil => simp [objUpd, lookupV]
  | cons p t ih =>
    obtain ⟨k2, v⟩ := p
    by_cases h : k2 = k
    · simp [objUpd, lookupV, h]
    · simp [objUpd, lookupV, h, ih]

lemma lookupV_objUpd_other {k k2 : κ} (hne : k2 ≠ k) (f : V → V) (i : V)
    (m : List (κ × V)) : lookupV k2 (objUpd k f i m) = lookupV k2 m := by
  have hne2 : ¬ k = k2 := fun h => hne h.symm
  induction m with
  | nil => simp [objUpd, lookupV, hne2]
  | cons p t ih =>
    obtain ⟨k3, v⟩ := p
    by_cases h : k3 = k
    · subst h; simp [objUpd, lookupV, hne2]
    · simp [objUpd, lookupV, h, ih]

omit [DecidableEq κ] in
lemma keysOf_cons (p : κ × V) (t : List (κ × V)) :
    keysOf (p :: t) = p.1 :: keysOf t := rfl

lemma keysOf_objUpd (k : κ) (f : V → V) (i : V) (m : List (κ × V)) :
    keysOf (objUpd k f i m) =
      if k ∈ keysOf m then keysOf m else keysOf m ++ [k] := by
  induction m with
  | nil => simp [objUpd, keysOf]
  | cons p t ih =>
    obtain ⟨k2, v⟩ := p
    by_cases h : k2 = k
    · subst h; simp [objUpd, keysOf]
    · have h2 : ¬ k = k2 := fun h3 => h h3.symm
      rw [objUpd, if_neg h, keysOf_cons, keysOf_cons, ih]
      by_cases hm : k ∈ keysOf t
      · rw [if_pos hm, if_pos (by simp [hm])]
      · rw [if_neg hm, if_neg (by simp [h2, hm])]
        simp

lemma keysOf_objUpd_nodup (k : κ) (f : V → V) (i : V) {m : List (κ × V)}
    (h : (keysOf m).Nodup) : (keysOf (objUpd k f i m)).Nodup := by
  rw [keysOf_objUpd]
  by_cases hm : k ∈ keysOf m
  · simpa [hm]
  · simpa [hm, List.nodup_append] using h

lemma lookupV_isSome_iff_mem (k : κ) (m : List (κ × V)) :
    (lookupV k m).isSome ↔ k ∈ keysOf m := by
  induction m with
  | nil => simp [lookupV, keysOf]
  | cons p t ih =>
    obtain ⟨k2, v⟩ := p
    rw [keysOf_cons]
    by_cases h : k2 = k
    · subst h; simp [lookupV]
    · have h2 : ¬ k = k2 := fun h3 => h h3.symm
      rw [lookupV, if_neg h, List.mem_cons]
      simp only [h2, false_or]
      exact ih

lemma mem_iff_lookupV (k : κ) (v : V) : ∀ (m : List (κ × V)),
    (keysOf m).Nodup → ((k, v) ∈ m ↔ lookupV k m = some v) := by
  intro m
  induction m with
  | nil => intro _; simp [lookupV]
  | cons p t ih =>
    intro hnd
    obtain ⟨k2, v2⟩ := p
    rw [keysOf_cons, List.nodup_cons] at hnd
    by_cases h : k2 = k
    · subst h
      rw [lookupV, if_pos rfl, List.mem_cons]
      constructor
      · rintro (h2 | h2)
        · rw [(show v = v2 from congrArg Prod.snd h2)]
        · exact absurd (by simpa [keysOf] using List.mem_map_of_mem Prod.fst h2) hnd.1
      · intro h2
        have hv : v2 = v := by simpa using h2
        subst hv
        exact Or.inl rfl
    · rw [lookupV, if_neg h, List.mem_cons, ← ih hnd.2]
      constructor
      · rintro (h2 | h2)
        · exact absurd (congrArg Prod.fst h2).symm h
        · exact h2
      · exact Or.inr

end ObjectModel

/-! ## A stable sort, as required of `Array.prototype.sort`

All comparators in the scripts are of the form "ascending by an integer
rank" (`(a, b) => b[1].count - a[1].count` is ascending by rank
`-count`), so the sort is modelled as a stable insertion sort by a rank
function `rk : α → Int`: an element is inserted before the first element it
strictly precedes (strictly smaller rank), so that elements of equal rank
keep their input order. -/

section StableSort

variable {α : Type} (rk : α → Int)

def sortInsert (x : α) : List α → List α
  | [] => [x]
  | y :: ys => if rk x < rk y then x :: y :: ys else y :: sortInsert x ys

def sortByRank (l : List α) : List α :=
  l.foldl (fun acc x => sortInsert rk x acc) []

lemma sortInsert_decomp (x : α) (l : List α) :
    ∃ l1 l2, l = l1 ++ l2 ∧ sortInsert rk x l = l1 ++ x :: l2 ∧
      (∀ y ∈ l1, ¬ rk x < rk y) ∧
      (∀ h t, l2 = h :: t → rk x < rk h) := by
  induction l with
  | nil =>
    refine ⟨[], [], by simp, by simp [sortInsert], by simp, ?_⟩
    intro h2 t2 he
    simp at he
  | cons y ys ih =>
    by_cases h : rk x < rk y
    · refine ⟨[], y :: ys, by simp, by simp [sortInsert, h], by simp, ?_⟩
      intro h2 t2 he
      cases he
      exact h
    · obtain ⟨l1, l2, he, hs, hp, hh⟩ := ih
      refine ⟨y :: l1, l2, by simp [he], by simp [sortInsert, h, hs], ?_, hh⟩
      intro z hz
      rcases List.mem_cons.mp hz with h2 | h2
      · subst h2; exact h
      · exact hp z h2

lemma sortInsert_perm (x : α) (l : List α) :
    (sortInsert rk x l).Perm (x :: l) := by
  obtain ⟨l1, l2, he, hs, _, _⟩ := sortInsert_decomp rk x l
  rw [hs, he]
  exact (List.perm_middle)

lemma foldl_sortInsert_perm (l : List α) (acc : List α) :
    (l.foldl (fun acc x => sortInsert rk x acc) acc).Perm (acc ++ l) := by
  induction l generalizing acc with
  | nil => simp
  | cons x t ih =>
    refine (ih (sortInsert rk x acc)).trans ?_
    refine ((sortInsert_perm rk x acc).append_right t).trans ?_
    simpa using (@List.perm_middle α x acc t).symm

lemma sortByRank_perm (l : List α) : (sortByRank rk l).Perm l := by
  simpa using foldl_sortInsert_perm rk l []

lemma sortInsert_pairwise {l : List α} (x : α)
    (h : l.Pairwise (fun a b => rk a ≤ rk b)) :
    (sortInsert rk x l).Pairwise (fun a b => rk a ≤ rk b) := by
  induction l with
  | nil => simp [sortInsert]
  | cons y ys ih =>
    rcases List.pairwise_cons.mp h with ⟨hy, hys⟩
    by_cases hlt : rk x < rk y
    · rw [sortInsert, if_pos hlt]
      refine List.pairwise_cons.mpr ⟨?_, h⟩
      intro z hz
      rcases List.mem_cons.mp hz with h2 | h2
      · subst h2; omega
      · have := hy z h2; omega
    · rw [sortInsert, if_neg hlt]
      refine List.pairwise_cons.mpr ⟨?_, ih hys⟩
      intro z hz
      have hz2 := (sortInsert_perm rk x ys).mem_iff.mp hz
      rcases List.mem_cons.mp hz2 with h2 | h2
      · subst h2; omega
      · exact hy z h2

lemma sortByRank_pairwise (l : List α) :
    (sortByRank rk l).Pairwise (fun a b => rk a ≤ rk b) := by
  have main : ∀ (t acc : List α), acc.Pairwise (fun a b => rk a ≤ rk b) →
      (t.foldl (fun acc x => sortInsert rk x acc) acc).Pairwise
        (fun a b => rk a ≤ rk b) := by
    intro t
    induction t with
    | nil => intro acc h; simpa using h
    | cons x t2 ih =>
      intro acc h
      exact ih _ (sortInsert_pairwise rk x h)
  simpa using main l [] (by simp)

lemma sortInsert_sublist_of_sublist {s l : List α} (x : α) (h : s.Sublist l) :
    s.Sublist (sortInsert rk x l) := by
  obtain ⟨l1, l2, he, hs, _, _⟩ := sortInsert_decomp rk x l
  rw [hs]
  subst he
  exact h.trans (List.Sublist.append_left (List.sublist_cons_self x l2) l1)

lemma foldl_sortInsert_sublist {s : List α} (t : List α) (acc : List α)
    (h : s.Sublist acc) :
    s.Sublist (t.foldl (fun acc z => sortInsert rk z acc) acc) := by
  induction t generalizing acc with
  | nil => simpa using h
  | cons z t2 ih => exact ih _ (sortInsert_sublist_of_sublist rk z h)

lemma sortInsert_pair {l : List α} {x : α} (y : α)
    (hsort : l.Pairwise (fun a b => rk a ≤ rk b)) (hx : x ∈ l)
    (hr : rk x ≤ rk y) : [x, y].Sublist (sortInsert rk y l) := by
  obtain ⟨l1, l2, he, hs, hp, hh⟩ := sortInsert_decomp rk y l
  rw [hs]
  have hx1 : x ∈ l1 := by
    rcases List.mem_append.mp (he ▸ hx) with h1 | h2
    · exact h1
    · exfalso
      cases l2 with
      | nil => simp at h2
      | cons h2h h2t =>
        have hyh := hh h2h h2t rfl
        subst he
        have hle : rk h2h ≤ rk x := by
          rcases List.mem_cons.mp h2 with h3 | h3
          · subst h3; omega
          · have hpw := List.pairwise_append.mp hsort
            have := (List.pairwise_cons.mp hpw.2.1).1 x h3
            omega
        omega
  obtain ⟨a1, a2, ha⟩ := List.append_of_mem hx1
  subst ha
  have h1 : ([x, y] : List α).Sublist (x :: (a2 ++ y :: l2)) := by
    refine List.cons_sublist_cons.mpr ?_
    exact (List.singleton_sublist.mpr (by simp)).trans (List.Sublist.refl _)
  refine h1.trans ?_
  have h2 : (x :: (a2 ++ y :: l2)).Sublist (a1 ++ x :: (a2 ++ y :: l2)) :=
    List.sublist_append_right a1 _
  simp only [List.append_assoc, List.cons_append] at h2 ⊢
  exact h2

lemma sortByRank_stable {l : List α} {x y : α}
    (h : [x, y].Sublist l) (hr : rk x ≤ rk y) :
    [x, y].Sublist (sortByRank rk l) := by
  have aux : ∀ (t acc : List α), acc.Pairwise (fun a b => rk a ≤ rk b) →
      x ∈ acc → y ∈ t →
      [x, y].Sublist (t.foldl (fun acc z => sortInsert rk z acc) acc) := by
    intro t
    induction t with
    | nil => intro acc _ _ hy; simp at hy
    | cons z t2 ih =>
      intro acc hs hxa hy
      by_cases hz : z = y
      · subst hz
        have hpair := sortInsert_pair rk z hs hxa hr
        exact foldl_sortInsert_sublist rk t2 _ hpair
      · have hy2 : y ∈ t2 := by
          rcases List.mem_cons.mp hy with h3 | h3
          · exact absurd h3.symm hz
          · exact h3
        refine ih _ (sortInsert_pairwise rk z hs) ?_ hy2
        exact (sortInsert_perm rk z acc).mem_iff.mpr (List.mem_cons_of_mem z hxa)
  rcases List.cons_sublist_iff.mp h with ⟨r1, r2, hr12, hxr1, hyr2⟩
  have hy : y ∈ r2 := by simpa using hyr2.mem (by simp)
  have hsplit : sortByRank rk l =
      r2.foldl (fun acc z => sortInsert rk z acc)
        (r1.foldl (fun acc z => sortInsert rk z acc) []) := by
    rw [sortByRank, hr12, List.foldl_append]
  rw [hsplit]
  refine aux r2 _ ?_ ?_ hy
  · exact sortByRank_pairwise rk r1
  · exact ((foldl_sortInsert_perm rk r1 []).mem_iff).mpr (by simpa using hxr1)

end StableSort

/-! ## `Object.entries`

`Object.entries` (and `for ... in` property order) enumerates canonical
array-index keys first, in ascending numeric order, then the remaining
string keys in insertion order.  `idx` classifies a key: `some v` when its
string form is a canonical array index with value `v`. -/

def jsEntries {κ V : Type} (idx : κ → Option Nat) (m : List (κ × V)) :
    List (κ × V) :=
  sortByRank (fun p => ((idx p.1).getD 0 : Int))
      (m.filter (fun p => (idx p.1).isSome))
    ++ m.filter (fun p => (idx p.1).isNone)

/-- Canonical array-index strings: `"0"`, or a digit string without a leading
zero whose numeric value is below 2^32 - 1. -/
def strIdx (s : String) : Option Nat :=
  match s.toList with
  | [] => none
  | c :: cs =>
    if (c :: cs).all Char.isDigit && (c = '0' → cs = []) then
      let v := (c :: cs).foldl (fun acc ch => 10 * acc + (ch.toNat - 48)) 0
      if v < 4294967295 then some v else none
    else none

/-! ## Folding rows into a dictionary

Every aggregation map in the scripts is a left fold of `objUpd` steps over
the row list; these lemmas characterize the result: the binding of a key is
the fold of the updates of the rows with that key, the key list is the
first-occurrence order of the row keys, and key lists stay duplicate-free. -/

section MapFold

variable {κ V ρ : Type} [DecidableEq κ] (key : ρ → κ) (f : ρ → V → V) (ini : ρ → V)

lemma foldl_objUpd_lookup : ∀ (rows : List ρ) (m : List (κ × V)) (k : κ),
    lookupV k (rows.foldl (fun m r => objUpd (key r) (f r) (ini r) m) m) =
      (rows.filter (fun r => key r = k)).foldl
        (fun acc r => some (acc.elim (ini r) (f r))) (lookupV k m) := by
  intro rows
  induction rows with
  | nil => intro m k; simp
  | cons r t ih =>
    intro m k
    by_cases h : key r = k
    · subst h
      rw [List.filter_cons_of_pos (by simp), List.foldl_cons, List.foldl_cons,
        ih, lookupV_objUpd_self]
    · rw [List.filter_cons_of_neg (by simp [h]), List.foldl_cons, ih,
        lookupV_objUpd_other (k := key r) (fun h2 => h h2.symm)]

/-- First-occurrence list: fold appending each new element at its first
occurrence. -/
def firstOccAux {α : Type} [DecidableEq α] (acc : List α) (L : List α) : List α :=
  L.foldl (fun ks n => if n ∈ ks then ks else ks ++ [n]) acc

lemma foldl_objUpd_keys : ∀ (rows : List ρ) (m : List (κ × V)),
    keysOf (rows.foldl (fun m r => objUpd (key r) (f r) (ini r) m) m) =
      firstOccAux (keysOf m) (rows.map key) := by
  intro rows
  induction rows with
  | nil => intro m; simp [firstOccAux]
  | cons r t ih =>
    intro m
    simp only [List.foldl_cons, List.map_cons, firstOccAux] at ih ⊢
    rw [ih, keysOf_objUpd]

lemma foldl_objUpd_keys_nodup : ∀ (rows : List ρ) (m : List (κ × V)),
    (keysOf m).Nodup →
    (keysOf (rows.foldl (fun m r => objUpd (key r) (f r) (ini r) m) m)).Nodup := by
  intro rows
  induction rows with
  | nil => intro m h; simpa using h
  | cons r t ih =>
    intro m h
    exact ih _ (keysOf_objUpd_nodup _ _ _ h)

end MapFold

lemma firstOccAux_mem {α : Type} [DecidableEq α] (x : α) :
    ∀ (L acc : List α), x ∈ firstOccAux acc L ↔ x ∈ acc ∨ x ∈ L := by
  intro L
  induction L with
  | nil => intro acc; simp [firstOccAux]
  | cons n t ih =>
    intro acc
    simp only [firstOccAux, List.foldl_cons] at ih ⊢
    by_cases h : n ∈ acc
    · rw [if_pos h, ih]
      constructor
      · rintro (h2 | h2)
        · exact Or.inl h2
        · exact Or.inr (List.mem_cons_of_mem n h2)
      · rintro (h2 | h2)
        · exact Or.inl h2
        · rcases List.mem_cons.mp h2 with h3 | h3
          · subst h3; exact Or.inl h
          · exact Or.inr h3
    · rw [if_neg h, ih]
      simp only [List.mem_append, List.mem_singleton, List.mem_cons]
      tauto

/-! ## Dictation events and application-name resolution -/

/-- One row of the `History` query result.  The loader's SQL guarantees
non-empty `formattedText` and `isArchived = 0`; `app`, `numWords` and
`duration` are nullable columns. -/
structure Row where
  formattedText : String
  timestamp : String
  app : Option String
  numWords : Option Nat
  duration : Option Nat
  deriving Repr, DecidableEq

/-- The static table of `friendlyAppName` (identical in all three scripts). -/
def appNameTable : List (String × String) :=
  [("dev.warp.Warp-Stable", "Warp"),
   ("com.apple.Safari", "Safari"),
   ("com.google.Chrome", "Chrome"),
   ("com.tinyspeck.slackmacgap", "Slack"),
   ("com.microsoft.VSCode", "VS Code"),
   ("com.todesktop.230313mzl4w4u92", "Cursor"),
   ("com.linear", "Linear"),
   ("com.apple.MobileSMS", "Messages"),
   ("com.apple.mail", "Mail"),
   ("com.apple.Notes", "Notes"),
   ("com.openai.chat", "ChatGPT"),
   ("com.superhuman.electron", "Superhuman"),
   ("com.figma.Desktop", "Figma"),
   ("com.apple.finder", "Finder"),
   ("com.apple.Terminal", "Terminal"),
   ("md.obsidian", "Obsidian"),
   ("notion.id", "Notion"),
   ("com.codeium.windsurf", "Windsurf"),
   ("company.thebrowser.Browser", "Arc"),
   ("net.shinyfrog.bear", "Bear"),
   ("com.hnc.Discord", "Discord"),
   ("com.spotify.client", "Spotify"),
   ("us.zoom.xos", "Zoom")]

/-- `friendlyAppName`: table lookup, then the fallback "last dot-separated
component with hyphens replaced by spaces"; a falsy (empty) identifier gives
`"Unknown"`. -/
def friendlyAppName (bundleId : String) : String :=
  if bundleId = "" then "Unknown"
  else
    match lookupV bundleId appNameTable with
    | some n => n
    | none =>
      String.mk (((splitOnChar '.' bundleId.toList).getLastD []).map
        (fun c => if c = '-' then ' ' else c))

/-- `r.app || "Unknown"` (`null` and the empty string are falsy). -/
def jsOrUnknown : Option String → String
  | none => "Unknown"
  | some s => if s = "" then "Unknown" else s

/-- The display name a row is grouped under. -/
def resolvedName (r : Row) : String := friendlyAppName (jsOrUnknown r.app)

/-- `r.numWords || 0`. -/
def wordsOf (r : Row) : Nat := r.numWords.getD 0

/-- `r.duration || 0`. -/
def durOf (r : Row) : Nat := r.duration.getD 0

def totalDictations (rows : List Row) : Nat := rows.length

def totalWords (rows : List Row) : Nat := (rows.map wordsOf).sum

/-- `new Date(r.timestamp).getHours()` for the store's timestamp shape
`YYYY-MM-DD HH:MM[:...]` (`T` also accepted as separator), which V8 parses
as local time, so the hour is the `HH` field; `none` models the `NaN`
produced by an Invalid Date on any other shape. -/
def jsGetHours (s : String) : Option Nat := do
  let _ ← parseIsoDate (s.take 10)
  match s.toList.drop 10 with
  | sep :: h1 :: h2 :: c1 :: mi1 :: mi2 :: _ => do
    let a ← digitVal h1
    let b ← digitVal h2
    let c ← digitVal mi1
    let d ← digitVal mi2
    if (sep = ' ' || sep = 'T') && c1 = ':' && 10 * a + b < 24 && 10 * c + d < 60 then
      some (10 * a + b)
    else none
  | _ => none

/-! ## The aggregation maps -/

/-- A bucket of the per-application breakdown: the scripts store
`{ count, words, bundleId }`, `bundleId` being the first identifier that
created the bucket. -/
structure AppStats where
  count : Nat
  words : Nat
  bundleId : String
  deriving Repr, DecidableEq

/-- `appMap` (identical in the daily, weekly and monthly scripts): one pass
over the rows, grouping by `friendlyAppName(r.app || "Unknown")`; a fresh
bucket starts at `{ count: 0, words: 0, bundleId }` and is immediately
incremented, so it enters the map as below. -/
def appMap (rows : List Row) : List (String × AppStats) :=
  rows.foldl (fun m r =>
    objUpd (resolvedName r)
      (fun s => { s with count := s.count + 1, words := s.words + wordsOf r })
      { count := 1, words := wordsOf r, bundleId := jsOrUnknown r.app } m) []

/-- `appsSorted = Object.entries(appMap).sort((a, b) => b[1].count -
a[1].count)`: entries in object property order, stably sorted descending by
count (ascending by rank `-count`). -/
def appsSorted (rows : List Row) : List (String × AppStats) :=
  sortByRank (fun p => -(p.2.count : Int)) (jsEntries strIdx (appMap rows))

/-- `hourMap[hour] = (hourMap[hour] || 0) + 1` over the rows.  The object's
keys are the strings `String(h)` (canonical array indices) for valid hours
and the plain string key `"NaN"` for rows whose timestamp does not parse;
they are modelled as `some h` / `none`. -/
def hourMap (rows : List Row) : List (Option Nat × Nat) :=
  rows.foldl (fun m r => objUpd (jsGetHours r.timestamp) (fun c => c + 1) 1 m) []

/-- Key classifier for `hourMap` keys: `String(h)` is an array index, `"NaN"`
is not. -/
def hourIdx : Option Nat → Option Nat := id

def hourEntries (rows : List Row) : List (Option Nat × Nat) :=
  jsEntries hourIdx (hourMap rows)

/-- `peakHour = Object.entries(hourMap).sort((a, b) => b[1] - a[1])[0]`. -/
def peakHour (rows : List Row) : Option (Option Nat × Nat) :=
  (sortByRank (fun p => -(p.2 : Int)) (hourEntries rows)).head?

/-- A bucket of the per-day map: `{ count, words, duration, apps: Set }`.
The `Set` is insertion-ordered and duplicate-free; only truthy `r.app`
values are added. -/
structure DayStats where
  count : Nat
  words : Nat
  duration : Nat
  apps : List String
  deriving Repr, DecidableEq

def addApp (apps : List String) : Option String → List String
  | none => apps
  | some s => if s = "" then apps else if s ∈ apps then apps else apps ++ [s]

/-- `dayMap` (weekly and monthly scripts): group by
`r.timestamp.slice(0, 10)`. -/
def dayMap (rows : List Row) : List (String × DayStats) :=
  rows.foldl (fun m r =>
    objUpd (r.timestamp.take 10)
      (fun s => { count := s.count + 1, words := s.words + wordsOf r,
                  duration := s.duration + durOf r, apps := addApp s.apps r.app })
      { count := 1, words := wordsOf r, duration := durOf r,
        apps := addApp [] r.app } m) []

def dayNames : List String := ["Sun", "Mon", "Tue", "Wed", "Thu", "Fri", "Sat"]

def dayNameOf (n : Int) : String := dayNames.getD (jsWeekday n).toNat ""

/-- The loop `for (cur = start; cur <= end; cur.setDate(cur.getDate() + 1))`
unrolled over its iteration count `k`: the `k` consecutive days from `s`. -/
def fillRangeAux : Nat → Int → List Int
  | 0, _ => []
  | k + 1, s => s :: fillRangeAux k (s + 1)

/-- The civil days `s, s+1, …, e` (the loop runs `e + 1 - s` times when
`s ≤ e`, zero times otherwise). -/
def fillRange (s e : Int) : List Int := fillRangeAux (e + 1 - s).toNat s

/-- An entry of the weekly gap-filled daily breakdown. -/
structure DayEntry where
  date : String
  dayName : String
  count : Nat
  words : Nat
  duration : Nat
  appCount : Nat
  deriving Repr, DecidableEq

/-- The weekly script's "fill in missing days" loop: `cur` runs (at local
noon) over the civil days `s … e` obtained by parsing `week.start` /
`week.end`; each key is `cur.toISOString().slice(0, 10)` and missing days
get a zero bucket. -/
def weeklyDaySorted (o : Int) (s e : Int) (rows : List Row) : List DayEntry :=
  (fillRange s e).map (fun n =>
    let key := renderIsoDate (isoDateOfLocalNoon o n)
    let data := (lookupV key (dayMap rows)).getD ⟨0, 0, 0, []⟩
    { date := key, dayName := dayNameOf n, count := data.count,
      words := data.words, duration := data.duration,
      appCount := data.apps.length })

/-- `monthRange.daysInMonth = lastDay.getDate()` where
`lastDay = new Date(year, month, 0)` — a local component, hence
offset-independent. -/
def daysInMonthJS (y m : Int) : Int := (civilFromDays (jsMakeDay y m 0)).2.2

/-- The day key built by the monthly script:
`year + "-" + String(month).padStart(2, "0") + "-" + String(d).padStart(2, "0")`. -/
def monthKey (y m : Int) (d : Nat) : String :=
  toString y ++ "-" ++ pad2 m.toNat ++ "-" ++ pad2 d

/-- An entry of the monthly gap-filled daily breakdown. -/
structure MonthDayEntry where
  date : String
  dayOfWeek : Int
  dayName : String
  dayNum : Nat
  count : Nat
  words : Nat
  duration : Nat
  appCount : Nat
  deriving Repr, DecidableEq

/-- The monthly script's "fill all days of the month" loop over
`d = 1 … daysInMonth`; `dt = new Date(key + "T12:00:00")` holds the local
civil date `(year, month, d)`, whose weekday feeds `dayOfWeek`/`dayName`. -/
def allDays (y m : Int) (rows : List Row) : List MonthDayEntry :=
  (List.range (daysInMonthJS y m).toNat).map (fun i =>
    let d := i + 1
    let key := monthKey y m d
    let n := daysFromCivil y m (d : Int)
    let data := (lookupV key (dayMap rows)).getD ⟨0, 0, 0, []⟩
    { date := key, dayOfWeek := jsWeekday n, dayName := dayNameOf n, dayNum := d,
      count := data.count, words := data.words, duration := data.duration,
      appCount := data.apps.length })

/-! ## Bucket contents -/

/-- Number of rows whose timestamp yields hour key `k`. -/
def cntHour (rows : List Row) (k : Option Nat) : Nat :=
  (rows.filter (fun r => jsGetHours r.timestamp = k)).length

/-- Number of rows resolving to application name `nm`. -/
def cntApp (rows : List Row) (nm : String) : Nat :=
  (rows.filter (fun r => resolvedName r = nm)).length

/-- Summed `numWords || 0` of the rows resolving to name `nm`. -/
def wordsApp (rows : List Row) (nm : String) : Nat :=
  ((rows.filter (fun r => resolvedName r = nm)).map wordsOf).sum

/-- Number of rows whose 10-character timestamp prefix is `d`. -/
def cntDay (rows : List Row) (d : String) : Nat :=
  (rows.filter (fun r => r.timestamp.take 10 = d)).length

lemma hourMap_lookup (rows : List Row) (k : Option Nat) :
    lookupV k (hourMap rows) =
      if cntHour rows k = 0 then none else some (cntHour rows k) := by
  have aux1 : ∀ (l : List Row) (c : Nat),
      List.foldl (fun (acc : Option Nat) (_ : Row) =>
        some (acc.elim 1 (fun c => c + 1))) (some c) l = some (c + l.length) := by
    intro l
    induction l with
    | nil => intro c; simp
    | cons r t ih =>
      intro c
      rw [List.foldl_cons, Option.elim_some, ih, List.length_cons]
      congr 1
      omega
  have h : lookupV k (hourMap rows) =
      (rows.filter (fun r => jsGetHours r.timestamp = k)).foldl
        (fun acc _ => some (acc.elim 1 (fun c => c + 1)))
        (lookupV k ([] : List (Option Nat × Nat))) :=
    foldl_objUpd_lookup (fun r : Row => jsGetHours r.timestamp)
      (fun _ c => c + 1) (fun _ => 1) rows [] k
  rw [h]
  unfold cntHour
  cases hf : rows.filter (fun r => jsGetHours r.timestamp = k) with
  | nil => simp [lookupV]
  | cons r t =>
    rw [show lookupV k ([] : List (Option Nat × Nat)) = none from rfl,
      List.foldl_cons, Option.elim_none, aux1]
    simp only [List.length_cons]
    rw [if_neg (by omega)]
    congr 1
    omega

lemma appMap_lookup (rows : List Row) (nm : String) :
    ((lookupV nm (appMap rows)).elim 0 AppStats.count = cntApp rows nm) ∧
    ((lookupV nm (appMap rows)).elim 0 AppStats.words = wordsApp rows nm) ∧
    ((lookupV nm (appMap rows)).isSome ↔ 0 < cntApp rows nm) := by
  have aux2 : ∀ (l : List Row) (s : AppStats),
      List.foldl (fun (acc : Option AppStats) (r : Row) =>
        some (acc.elim
          { count := 1, words := wordsOf r, bundleId := jsOrUnknown r.app }
          (fun s => { s with count := s.count + 1, words := s.words + wordsOf r })))
        (some s) l =
      some { count := s.count + l.length, words := s.words + (l.map wordsOf).sum,
             bundleId := s.bundleId } := by
    intro l
    induction l with
    | nil => intro s; simp
    | cons r t ih =>
      intro s
      rw [List.foldl_cons, Option.elim_some, ih]
      simp only [List.length_cons, List.map_cons, List.sum_cons]
      congr 1
      simp only [AppStats.mk.injEq]
      exact ⟨by omega, by omega, trivial⟩
  have h : lookupV nm (appMap rows) =
      (rows.filter (fun r => resolvedName r = nm)).foldl
        (fun acc r => some (acc.elim
          { count := 1, words := wordsOf r, bundleId := jsOrUnknown r.app }
          (fun s => { s with count := s.count + 1, words := s.words + wordsOf r })))
        (lookupV nm ([] : List (String × AppStats))) :=
    foldl_objUpd_lookup (fun r : Row => resolvedName r)
      (fun (r : Row) (s : AppStats) =>
        { s with count := s.count + 1, words := s.words + wordsOf r })
      (fun (r : Row) =>
        ({ count := 1, words := wordsOf r, bundleId := jsOrUnknown r.app } : AppStats))
      rows [] nm
  rw [h]
  unfold cntApp wordsApp
  cases hf : rows.filter (fun r => resolvedName r = nm) with
  | nil => simp [lookupV]
  | cons r t =>
    rw [show lookupV nm ([] : List (String × AppStats)) = none from rfl,
      List.foldl_cons, Option.elim_none, aux2]
    simp [List.length_cons]
    omega

lemma dayMap_lookup (rows : List Row) (d : String) :
    (lookupV d (dayMap rows)).elim 0 DayStats.count = cntDay rows d := by
  have aux3 : ∀ (l : List Row) (s : DayStats),
      ((List.foldl (fun (acc : Option DayStats) (r : Row) =>
        some (acc.elim
          { count := 1, words := wordsOf r, duration := durOf r, apps := addApp [] r.app }
          (fun s => { count := s.count + 1, words := s.words + wordsOf r,
                      duration := s.duration + durOf r, apps := addApp s.apps r.app })))
        (some s) l).elim 0 DayStats.count) = s.count + l.length := by
    intro l
    induction l with
    | nil => intro s; simp
    | cons r t ih =>
      intro s
      rw [List.foldl_cons, Option.elim_some, ih]
      simp only [List.length_cons]
      omega
  have h : lookupV d (dayMap rows) =
      (rows.filter (fun r => r.timestamp.take 10 = d)).foldl
        (fun acc r => some (acc.elim
          { count := 1, words := wordsOf r, duration := durOf r, apps := addApp [] r.app }
          (fun s => { count := s.count + 1, words := s.words + wordsOf r,
                      duration := s.duration + durOf r, apps := addApp s.apps r.app })))
        (lookupV d ([] : List (String × DayStats))) :=
    foldl_objUpd_lookup (fun r : Row => r.timestamp.take 10)
      (fun (r : Row) (s : DayStats) =>
        { count := s.count + 1, words := s.words + wordsOf r,
          duration := s.duration + durOf r, apps := addApp s.apps r.app })
      (fun (r : Row) =>
        ({ count := 1, words := wordsOf r, duration := durOf r,
           apps := addApp [] r.app } : DayStats))
      rows [] d
  rw [h]
  unfold cntDay
  cases hf : rows.filter (fun r => r.timestamp.take 10 = d) with
  | nil => simp [lookupV]
  | cons r t =>
    rw [show lookupV d ([] : List (String × DayStats)) = none from rfl,
      List.foldl_cons, Option.elim_none, aux3]
    simp only [List.length_cons]
    omega

/-- `activeDays = allDays.filter(d => d.count > 0).length`. -/
def activeDays (y m : Int) (rows : List Row) : Nat :=
  ((allDays y m rows).filter (fun d => 0 < d.count)).length

/-- `Math.round(num / den)` on non-negative operands: round half up, as an
exact rational computation `⌊num/den + 1/2⌋ = (2num + den) / (2den)`. -/
def jsRound (num den : Nat) : Nat := (2 * num + den) / (2 * den)

def avgDictationsPerDay (y m : Int) (rows : List Row) : Nat :=
  if 0 < activeDays y m rows then jsRound (totalDictations rows) (activeDays y m rows)
  else 0

def avgWordsPerDay (y m : Int) (rows : List Row) : Nat :=
  if 0 < activeDays y m rows then jsRound (totalWords rows) (activeDays y m rows)
  else 0

/-- Round-half-up of the exact rational percentage `100 * count / total` —
the idealization of `Math.round((count / total) * 100)` that the spec's
wording asserts.  The program's actual value is `pctJS` (binary64
arithmetic), which falls below this whenever the double product lands just
under an exact half (see the C9 counterexample). -/
def pctOf (count total : Nat) : Nat := (200 * count + total) / (2 * total)

/-! ## Entry lists and totals -/

lemma jsEntries_perm {κ V : Type} (idx : κ → Option Nat) (m : List (κ × V)) :
    (jsEntries idx m).Perm m := by
  unfold jsEntries
  refine ((sortByRank_perm _ _).append_right _).trans ?_
  have hco : ∀ p ∈ m, ((idx p.1).isNone : Bool) = !(idx p.1).isSome := by
    intro p _
    cases idx p.1 <;> rfl
  rw [List.filter_congr hco]
  exact List.filter_append_perm _ m

lemma appsSorted_perm (rows : List Row) :
    (appsSorted rows).Perm (appMap rows) :=
  (sortByRank_perm _ _).trans (jsEntries_perm strIdx (appMap rows))

lemma hourEntries_perm (rows : List Row) :
    (hourEntries rows).Perm (hourMap rows) :=
  jsEntries_perm hourIdx (hourMap rows)

def sumCounts (m : List (Option Nat × Nat)) : Nat := (m.map Prod.snd).sum

lemma sumCounts_objUpd (k : Option Nat) (m : List (Option Nat × Nat)) :
    sumCounts (objUpd k (fun c => c + 1) 1 m) = sumCounts m + 1 := by
  induction m with
  | nil => simp [objUpd, sumCounts]
  | cons p t ih =>
    obtain ⟨k2, v⟩ := p
    by_cases h : k2 = k
    · subst h
      simp [objUpd, sumCounts]
      omega
    · simp only [objUpd, if_neg h, sumCounts, List.map_cons, List.sum_cons] at ih ⊢
      omega

/-- Every row is counted in the hour histogram — rows with unparseable
timestamps included (they land in the `"NaN"` bucket). -/
lemma hourMap_total (rows : List Row) : sumCounts (hourMap rows) = rows.length := by
  have aux : ∀ (l : List Row) (m : List (Option Nat × Nat)),
      sumCounts (l.foldl (fun m r =>
        objUpd (jsGetHours r.timestamp) (fun c => c + 1) 1 m) m) =
        sumCounts m + l.length := by
    intro l
    induction l with
    | nil => intro m; simp
    | cons r t ih =>
      intro m
      rw [List.foldl_cons, ih, sumCounts_objUpd, List.length_cons]
      omega
  simpa [sumCounts] using aux rows []

/-- The total of the per-application counts is the number of rows. -/
lemma appMap_count_total (rows : List Row) :
    (((appMap rows).map (fun p => p.2.count)).sum) = rows.length := by
  have step : ∀ (r : Row) (m : List (String × AppStats)),
      ((objUpd (resolvedName r)
        (fun s => { s with count := s.count + 1, words := s.words + wordsOf r })
        { count := 1, words := wordsOf r, bundleId := jsOrUnknown r.app } m).map
          (fun p => p.2.count)).sum = ((m.map (fun p => p.2.count)).sum) + 1 := by
    intro r m
    induction m with
    | nil => simp [objUpd]
    | cons p t ih =>
      obtain ⟨k2, v⟩ := p
      by_cases h : k2 = resolvedName r
      · subst h
        simp [objUpd]
        omega
      · simp only [objUpd, if_neg h, List.map_cons, List.sum_cons] at ih ⊢
        omega
  have aux : ∀ (l : List Row) (m : List (String × AppStats)),
      ((l.foldl (fun m r =>
        objUpd (resolvedName r)
          (fun s => { s with count := s.count + 1, words := s.words + wordsOf r })
          { count := 1, words := wordsOf r, bundleId := jsOrUnknown r.app } m) m).map
            (fun p => p.2.count)).sum = ((m.map (fun p => p.2.count)).sum) + l.length := by
    intro l
    induction l with
    | nil => intro m; simp
    | cons r t ih =>
      intro m
      rw [List.foldl_cons, ih, step, List.length_cons]
      omega
  simpa using aux rows []

/-! ## Concrete rows used by witnesses and counterexamples -/

/-- A well-formed row at 10:15 local, application `"aa.bb"` (resolved name
`"bb"`). -/
def rowA : Row :=
  { formattedText := "first transcript", timestamp := "2026-03-02 10:15:00",
    app := some "aa.bb", numWords := some 5, duration := some 3 }

/-- A well-formed row at 11:20 local, application `"cc.7"` (resolved name
`"7"`, a canonical array-index string). -/
def rowB : Row :=
  { formattedText := "second transcript", timestamp := "2026-03-02 11:20:00",
    app := some "cc.7", numWords := some 4, duration := some 2 }

/-- A row whose timestamp V8 cannot parse (`new Date` gives an Invalid
Date). -/
def rowBad : Row :=
  { formattedText := "bad row", timestamp := "not a date", app := some "aa.bb",
    numWords := some 2, duration := some 1 }

/-! ## Claim C7: rows with unparseable timestamps -/

/-- C7 (amended): a row with an unparseable timestamp never aborts the
aggregation — every row is counted, and buckets of rows that do parse are
unaffected — but such a row is not skipped: it is counted in the totals,
grouped under the invalid `"NaN"` key in the hour histogram, and grouped
under its raw 10-character timestamp prefix in the day map. -/
theorem malformed_rows_counted_not_skipped (rows : List Row) :
    sumCounts (hourMap rows) = rows.length ∧
    (∀ h : Nat, lookupV (some h) (hourMap rows) =
      if cntHour rows (some h) = 0 then none else some (cntHour rows (some h))) ∧
    (lookupV none (hourMap rows) =
      if cntHour rows none = 0 then none else some (cntHour rows none)) ∧
    (∀ d : String, (lookupV d (dayMap rows)).elim 0 DayStats.count = cntDay rows d) :=
  ⟨hourMap_total rows, fun h => hourMap_lookup rows (some h),
   hourMap_lookup rows none, fun d => dayMap_lookup rows d⟩

/-- C7 (counterexample): with one well-formed row and one malformed row, the
hour histogram is not the histogram of the well-formed rows alone — the
malformed row is not skipped; it appears as a `"NaN"` bucket and is counted
in the totals. -/
theorem malformed_row_not_skipped_counterexample :
    jsGetHours rowBad.timestamp = none ∧
    hourEntries [rowA, rowBad] ≠ hourEntries [rowA] ∧
    hourEntries [rowA, rowBad] = [(some 10, 1), (none, 1)] ∧
    totalDictations [rowA, rowBad] = 2 ∧ totalDictations [rowA] = 1 :=
  ⟨by decide, by decide, by decide, by decide, by decide⟩


/-! ## The head of the stable sort: leftmost best element -/

/-- The leftmost element of minimal rank (ties keep the earlier element),
i.e. the element `sort(...)[0]` selects. -/
def firstMinBy {α : Type} (rk : α → Int) (l : List α) : Option α :=
  l.foldl (fun b z =>
    some (b.elim z (fun b0 => if rk z < rk b0 then z else b0))) none

lemma sortByRank_head {α : Type} (rk : α → Int) (l : List α) :
    (sortByRank rk l).head? = firstMinBy rk l := by
  have aux : ∀ (t acc : List α),
      (t.foldl (fun acc z => sortInsert rk z acc) acc).head? =
      t.foldl (fun b z =>
        some (b.elim z (fun b0 => if rk z < rk b0 then z else b0))) acc.head? := by
    intro t
    induction t with
    | nil => intro acc; rfl
    | cons z t2 ih =>
      intro acc
      rw [List.foldl_cons, List.foldl_cons, ih]
      congr 1
      cases acc with
      | nil => rfl
      | cons a as => by_cases h : rk z < rk a <;> simp [sortInsert, h]
  exact aux l []

lemma foldl_min_spec {α : Type} (rk : α → Int) :
    ∀ (t : List α) (b0 : α), ∃ b,
      t.foldl (fun b z =>
        some (b.elim z (fun b1 => if rk z < rk b1 then z else b1))) (some b0) = some b ∧
      rk b ≤ rk b0 ∧
      ((b = b0 ∧ ∀ z ∈ t, rk b0 ≤ rk z) ∨
       (∃ t1 t2, t = t1 ++ b :: t2 ∧ rk b < rk b0 ∧
         (∀ z ∈ t1, rk b < rk z) ∧ (∀ z ∈ t2, rk b ≤ rk z))) := by
  intro t
  induction t with
  | nil =>
    intro b0
    exact ⟨b0, rfl, le_refl _, Or.inl ⟨rfl, by simp⟩⟩
  | cons z t2 ih =>
    intro b0
    by_cases hlt : rk z < rk b0
    · obtain ⟨b, heq, hle, hdisj⟩ := ih z
      refine ⟨b, ?_, by omega, ?_⟩
      · rw [List.foldl_cons, Option.elim_some, if_pos hlt]
        exact heq
      · rcases hdisj with ⟨hb, hall⟩ | ⟨t1, t2x, hdec, hblt, hpre, hsuf⟩
        · subst hb
          exact Or.inr ⟨[], t2, by simp, hlt, by simp, hall⟩
        · refine Or.inr ⟨z :: t1, t2x, by simp [hdec], by omega, ?_, hsuf⟩
          intro w hw
          rcases List.mem_cons.mp hw with h2 | h2
          · subst h2; omega
          · exact hpre w h2
    · obtain ⟨b, heq, hle, hdisj⟩ := ih b0
      refine ⟨b, ?_, hle, ?_⟩
      · rw [List.foldl_cons, Option.elim_some, if_neg hlt]
        exact heq
      · rcases hdisj with ⟨hb, hall⟩ | ⟨t1, t2x, hdec, hblt, hpre, hsuf⟩
        · subst hb
          refine Or.inl ⟨rfl, ?_⟩
          intro w hw
          rcases List.mem_cons.mp hw with h2 | h2
          · subst h2; omega
          · exact hall w h2
        · refine Or.inr ⟨z :: t1, t2x, by simp [hdec], hblt, ?_, hsuf⟩
          intro w hw
          rcases List.mem_cons.mp hw with h2 | h2
          · subst h2; omega
          · exact hpre w h2

lemma firstMinBy_decomp {α : Type} (rk : α → Int) (l : List α) (b : α)
    (h : firstMinBy rk l = some b) :
    ∃ l1 l2, l = l1 ++ b :: l2 ∧ (∀ z ∈ l1, rk b < rk z) ∧
      (∀ z ∈ l2, rk b ≤ rk z) := by
  cases l with
  | nil => simp [firstMinBy] at h
  | cons x t =>
    have hx : firstMinBy rk (x :: t) =
        t.foldl (fun b z =>
          some (b.elim z (fun b1 => if rk z < rk b1 then z else b1))) (some x) := rfl
    obtain ⟨b2, heq, hle, hdisj⟩ := foldl_min_spec rk t x
    rw [hx, heq] at h
    cases h
    rcases hdisj with ⟨hb, hall⟩ | ⟨t1, t2x, hdec, hblt, hpre, hsuf⟩
    · subst hb
      exact ⟨[], t, by simp, by simp, hall⟩
    · refine ⟨x :: t1, t2x, by simp [hdec], ?_, hsuf⟩
      intro w hw
      rcases List.mem_cons.mp hw with h2 | h2
      · subst h2; exact hblt
      · exact hpre w h2

/-! ## Claim C5: the per-hour histogram and the peak hour -/

lemma hourMap_keys_nodup (rows : List Row) : (keysOf (hourMap rows)).Nodup :=
  foldl_objUpd_keys_nodup (fun r : Row => jsGetHours r.timestamp)
    (fun _ c => c + 1) (fun _ => 1) rows [] (by simp [keysOf])

lemma hourMap_keys_isSome (rows : List Row)
    (hval : ∀ r ∈ rows, (jsGetHours r.timestamp).isSome) :
    ∀ k ∈ keysOf (hourMap rows), k.isSome := by
  intro k hk
  have hkeys : keysOf (hourMap rows) =
      firstOccAux (keysOf ([] : List (Option Nat × Nat)))
        (rows.map (fun r => jsGetHours r.timestamp)) :=
    foldl_objUpd_keys (fun r : Row => jsGetHours r.timestamp)
      (fun _ c => c + 1) (fun _ => 1) rows []
  rw [hkeys] at hk
  rcases (firstOccAux_mem k _ _).mp hk with h2 | h2
  · simp [keysOf] at h2
  · rcases List.mem_map.mp h2 with ⟨r, hr, hkr⟩
    rw [← hkr]
    exact hval r hr

lemma hourEntries_eq_of_valid (rows : List Row)
    (hval : ∀ r ∈ rows, (jsGetHours r.timestamp).isSome) :
    hourEntries rows =
      sortByRank (fun p : Option Nat × Nat => ((hourIdx p.1).getD 0 : Int))
        (hourMap rows) := by
  unfold hourEntries jsEntries
  have h1 : (hourMap rows).filter (fun p => (hourIdx p.1).isSome) = hourMap rows := by
    rw [List.filter_eq_self]
    intro p hp
    simpa [hourIdx] using
      hourMap_keys_isSome rows hval p.1 (List.mem_map_of_mem Prod.fst hp)
  have h2 : (hourMap rows).filter (fun p => (hourIdx p.1).isNone) = [] := by
    rw [List.filter_eq_nil_iff]
    intro p hp
    have hs := hourMap_keys_isSome rows hval p.1 (List.mem_map_of_mem Prod.fst hp)
    simp only [hourIdx, id]
    cases hmem : p.1 with
    | none => rw [hmem] at hs; simp at hs
    | some v => simp
  rw [h1, h2, List.append_nil]

lemma hourEntries_strict_asc (rows : List Row)
    (hval : ∀ r ∈ rows, (jsGetHours r.timestamp).isSome) :
    (hourEntries rows).Pairwise
      (fun a b => ((hourIdx a.1).getD 0 : Int) < ((hourIdx b.1).getD 0 : Int)) := by
  rw [hourEntries_eq_of_valid rows hval]
  have hpw := sortByRank_pairwise
    (fun p : Option Nat × Nat => ((hourIdx p.1).getD 0 : Int)) (hourMap rows)
  have hperm := sortByRank_perm
    (fun p : Option Nat × Nat => ((hourIdx p.1).getD 0 : Int)) (hourMap rows)
  have hnd : ((sortByRank (fun p : Option Nat × Nat => ((hourIdx p.1).getD 0 : Int))
      (hourMap rows)).map Prod.fst).Nodup :=
    (hperm.map Prod.fst).nodup_iff.mpr (hourMap_keys_nodup rows)
  have hne : (sortByRank (fun p : Option Nat × Nat => ((hourIdx p.1).getD 0 : Int))
      (hourMap rows)).Pairwise (fun a b => a.1 ≠ b.1) :=
    List.pairwise_map.mp hnd
  rw [List.pairwise_iff_forall_sublist]
  intro a b hab
  have hle := List.pairwise_iff_forall_sublist.mp hpw hab
  have hne2 := List.pairwise_iff_forall_sublist.mp hne hab
  have hmema : a ∈ hourMap rows := hperm.subset (hab.subset (by simp))
  have hmemb : b ∈ hourMap rows := hperm.subset (hab.subset (by simp))
  have hsa : a.1.isSome :=
    hourMap_keys_isSome rows hval a.1 (List.mem_map_of_mem Prod.fst hmema)
  have hsb : b.1.isSome :=
    hourMap_keys_isSome rows hval b.1 (List.mem_map_of_mem Prod.fst hmemb)
  obtain ⟨va, hva⟩ := Option.isSome_iff_exists.mp hsa
  obtain ⟨vb, hvb⟩ := Option.isSome_iff_exists.mp hsb
  rw [hva, hvb] at hle hne2 ⊢
  simp only [hourIdx, id, Option.getD_some] at hle ⊢
  have : va ≠ vb := fun h => hne2 (by rw [h])
  omega

/-- C5: with a non-empty row list whose timestamps all parse, the peak hour
entry is the bucket of some hour `h`, its count is the number of rows in
hour `h`, no hour has a larger count, and `h` is the lowest hour among the
maxima (the stable descending sort of the ascending hour entries keeps the
first maximal entry in front). -/
theorem peak_hour_lowest_among_maxima (rows : List Row) (hne : rows ≠ [])
    (hval : ∀ r ∈ rows, (jsGetHours r.timestamp).isSome) :
    ∃ h c, peakHour rows = some (some h, c) ∧ c = cntHour rows (some h) ∧
      0 < c ∧ (∀ h2 : Nat, cntHour rows (some h2) ≤ c) ∧
      (∀ h2 : Nat, cntHour rows (some h2) = c → h ≤ h2) := by
  obtain ⟨r0, rt, hrows⟩ : ∃ r t, rows = r :: t := by
    cases rows with
    | nil => exact absurd rfl hne
    | cons r t => exact ⟨r, t, rfl⟩
  have hcnt0 : 0 < cntHour rows (jsGetHours r0.timestamp) := by
    unfold cntHour
    rw [hrows, List.filter_cons_of_pos (by simp)]
    simp
  have hM_ne : hourMap rows ≠ [] := by
    intro h0
    have hl := hourMap_lookup rows (jsGetHours r0.timestamp)
    rw [h0, if_neg (by omega)] at hl
    simp [lookupV] at hl
  have hE_ne : hourEntries rows ≠ [] := by
    intro h0
    have hlen := (hourEntries_perm rows).length_eq
    rw [h0] at hlen
    exact hM_ne (List.length_eq_zero.mp hlen.symm)
  have hpk : peakHour rows =
      firstMinBy (fun p : Option Nat × Nat => -(p.2 : Int)) (hourEntries rows) :=
    sortByRank_head _ (hourEntries rows)
  obtain ⟨b, hb⟩ : ∃ b, firstMinBy (fun p : Option Nat × Nat => -(p.2 : Int))
      (hourEntries rows) = some b := by
    cases hE : hourEntries rows with
    | nil => exact absurd hE hE_ne
    | cons x t =>
      obtain ⟨b, heq, _, _⟩ := foldl_min_spec
        (fun p : Option Nat × Nat => -(p.2 : Int)) t x
      exact ⟨b, heq⟩
  obtain ⟨l1, l2, hdec, hpre, hsuf⟩ := firstMinBy_decomp _ _ _ hb
  have hbE : b ∈ hourEntries rows := by rw [hdec]; simp
  have hbM : b ∈ hourMap rows := (hourEntries_perm rows).subset hbE
  have hnd := hourMap_keys_nodup rows
  have hbl : lookupV b.1 (hourMap rows) = some b.2 :=
    (mem_iff_lookupV b.1 b.2 (hourMap rows) hnd).mp (by simpa using hbM)
  rw [hourMap_lookup] at hbl
  by_cases hc0 : cntHour rows b.1 = 0
  · rw [if_pos hc0] at hbl
    exact absurd hbl (by simp)
  rw [if_neg hc0] at hbl
  have hbc : b.2 = cntHour rows b.1 := by
    have := hbl.symm
    simpa using this
  have hsome : b.1.isSome :=
    hourMap_keys_isSome rows hval b.1 (List.mem_map_of_mem Prod.fst hbM)
  obtain ⟨h, hh⟩ := Option.isSome_iff_exists.mp hsome
  have hmemE : ∀ (h2 : Nat), cntHour rows (some h2) ≠ 0 →
      (some h2, cntHour rows (some h2)) ∈ hourEntries rows := by
    intro h2 hc2
    have hl2 : lookupV (some h2) (hourMap rows) = some (cntHour rows (some h2)) := by
      rw [hourMap_lookup, if_neg hc2]
    exact (hourEntries_perm rows).symm.subset
      ((mem_iff_lookupV (some h2) (cntHour rows (some h2)) (hourMap rows) hnd).mpr hl2)
  refine ⟨h, b.2, ?_, by rw [hbc, hh], by omega, ?_, ?_⟩
  · rw [hpk, hb, ← hh]
  · intro h2
    by_cases hc2 : cntHour rows (some h2) = 0
    · omega
    · have hmem := hmemE h2 hc2
      rw [hdec] at hmem
      rcases List.mem_append.mp hmem with hm1 | hm2
      · have := hpre _ hm1
        simp only [neg_lt_neg_iff, Int.ofNat_lt] at this
        omega
      · rcases List.mem_cons.mp hm2 with hm3 | hm4
        · have h22 : cntHour rows (some h2) = b.2 := congrArg Prod.snd hm3
          omega
        · have := hsuf _ hm4
          simp only [neg_le_neg_iff, Int.ofNat_le] at this
          omega
  · intro h2 hc2
    have hc2ne : cntHour rows (some h2) ≠ 0 := by omega
    have hmem := hmemE h2 hc2ne
    rw [hdec] at hmem
    rcases List.mem_append.mp hmem with hm1 | hm2
    · have := hpre _ hm1
      simp only [neg_lt_neg_iff, Int.ofNat_lt] at this
      omega
    · rcases List.mem_cons.mp hm2 with hm3 | hm4
      · have : some h2 = b.1 := congrArg Prod.fst hm3
        rw [hh] at this
        simp at this
        omega
      · have hasc := hourEntries_strict_asc rows hval
        have hsub : [b, (some h2, cntHour rows (some h2))].Sublist
            (hourEntries rows) := by
          rw [hdec]
          refine List.Sublist.trans ?_ (List.sublist_append_right l1 _)
          exact List.cons_sublist_cons.mpr (List.singleton_sublist.mpr hm4)
        have := List.pairwise_iff_forall_sublist.mp hasc hsub
        rw [hh] at this
        simp only [hourIdx, id, Option.getD_some] at this
        omega

/-! ## Claim C1: the per-application breakdown -/

lemma appMap_keys_nodup (rows : List Row) : (keysOf (appMap rows)).Nodup :=
  foldl_objUpd_keys_nodup (fun r : Row => resolvedName r)
    (fun (r : Row) (s : AppStats) =>
      { s with count := s.count + 1, words := s.words + wordsOf r })
    (fun (r : Row) =>
      ({ count := 1, words := wordsOf r, bundleId := jsOrUnknown r.app } : AppStats))
    rows [] (by simp [keysOf])

lemma appMap_keys (rows : List Row) :
    keysOf (appMap rows) = firstOccAux [] (rows.map resolvedName) := by
  have h := foldl_objUpd_keys (fun r : Row => resolvedName r)
    (fun (r : Row) (s : AppStats) =>
      { s with count := s.count + 1, words := s.words + wordsOf r })
    (fun (r : Row) =>
      ({ count := 1, words := wordsOf r, bundleId := jsOrUnknown r.app } : AppStats))
    rows []
  simpa [keysOf] using h

lemma sublist_pair_total {α : Type} {x y : α} : ∀ {l : List α},
    x ∈ l → y ∈ l → x ≠ y → [x, y].Sublist l ∨ [y, x].Sublist l := by
  intro l
  induction l with
  | nil => intro h; simp at h
  | cons z t ih =>
    intro hx hy hne
    rcases List.mem_cons.mp hx with hxz | hx2
    · subst hxz
      have hy2 : y ∈ t := by
        rcases List.mem_cons.mp hy with h2 | h2
        · exact absurd h2.symm hne
        · exact h2
      exact Or.inl (List.cons_sublist_cons.mpr (List.singleton_sublist.mpr hy2))
    · rcases List.mem_cons.mp hy with hyz | hy2
      · subst hyz
        exact Or.inr (List.cons_sublist_cons.mpr (List.singleton_sublist.mpr hx2))
      · rcases ih hx2 hy2 hne with h | h
        · exact Or.inl (h.trans (List.sublist_cons_self z t))
        · exact Or.inr (h.trans (List.sublist_cons_self z t))

lemma sublist_pair_asymm {α : Type} : ∀ {l : List α}, l.Nodup → ∀ {x y : α},
    [x, y].Sublist l → [y, x].Sublist l → False := by
  intro l
  induction l with
  | nil => intro _ x y h; simp at h
  | cons z t ih =>
    intro hnd x y hxy hyx
    have hz := List.nodup_cons.mp hnd
    cases hxy with
    | cons _ h1 =>
      cases hyx with
      | cons _ h2 => exact ih hz.2 h1 h2
      | cons₂ _ h2 => exact hz.1 (h1.subset (by simp))
    | cons₂ _ h1 =>
      cases hyx with
      | cons _ h2 => exact hz.1 (h2.subset (by simp))
      | cons₂ _ h2 => exact hz.1 (h2.subset (by simp))

lemma jsEntries_str_pair {κ V : Type} (idx : κ → Option Nat)
    {m : List (κ × V)} {x y : κ × V} (h : [x, y].Sublist m)
    (hx : idx x.1 = none) (hy : idx y.1 = none) :
    [x, y].Sublist (jsEntries idx m) := by
  unfold jsEntries
  refine List.Sublist.trans ?_ (List.sublist_append_right _ _)
  have h2 := h.filter (fun p => (idx p.1).isNone)
  simpa [List.filter, hx, hy] using h2

lemma firstOccAux_append {α : Type} [DecidableEq α] (acc L : List α) (n : α) :
    firstOccAux acc (L ++ [n]) =
      if n ∈ firstOccAux acc L then firstOccAux acc L
      else firstOccAux acc L ++ [n] := by
  unfold firstOccAux
  rw [List.foldl_append]
  rfl

lemma firstOccAux_pair {α : Type} [DecidableEq α] {x y : α} :
    ∀ (L : List α), [x, y].Sublist (firstOccAux [] L) →
      L.indexOf x < L.indexOf y := by
  intro L
  induction L using List.reverseRecOn with
  | nil =>
    intro h
    have h0 : firstOccAux ([] : List α) [] = [] := rfl
    rw [h0] at h
    have h1 := List.sublist_nil.mp h
    simp at h1
  | append_singleton L n ih =>
    intro h
    rw [firstOccAux_append] at h
    have hmemL : ∀ (w : α), w ∈ firstOccAux ([] : List α) L → w ∈ L := by
      intro w hw
      rcases (firstOccAux_mem w L []).mp hw with h2 | h2
      · simp at h2
      · exact h2
    by_cases hn : n ∈ firstOccAux ([] : List α) L
    · rw [if_pos hn] at h
      have hx : x ∈ L := hmemL x (h.subset (by simp))
      have hy : y ∈ L := hmemL y (h.subset (by simp))
      rw [List.indexOf_append_of_mem hx, List.indexOf_append_of_mem hy]
      exact ih h
    · rw [if_neg hn] at h
      have hnL : n ∉ L := fun h2 => hn ((firstOccAux_mem n L []).mpr (Or.inr h2))
      rcases List.sublist_append_iff.mp h with ⟨r1, r2, hsplit, h1, h2⟩
      cases r1 with
      | nil =>
        simp only [List.nil_append] at hsplit
        subst hsplit
        have hlen := h2.length_le
        simp at hlen
      | cons a r1t =>
        cases r1t with
        | nil =>
          simp only [List.cons_append, List.nil_append] at hsplit
          obtain ⟨hxa, hr2⟩ := List.cons.inj hsplit
          subst hxa
          subst hr2
          have hyn : y = n := by
            simpa using List.singleton_sublist.mp h2
          subst hyn
          have hx2 : x ∈ L := hmemL x (h1.subset (by simp))
          rw [List.indexOf_append_of_mem hx2, List.indexOf_append_of_not_mem hnL]
          have hlt := List.indexOf_lt_length.mpr hx2
          simp only [List.indexOf_cons_self]
          omega
        | cons b r1tt =>
          have hlen := congrArg List.length hsplit
          simp only [List.length_cons, List.length_append, List.length_nil] at hlen
          have hr1tt : r1tt = [] := List.length_eq_zero.mp (by omega)
          have hr2e : r2 = [] := List.length_eq_zero.mp (by omega)
          subst hr1tt
          subst hr2e
          simp only [List.append_nil] at hsplit h1
          obtain ⟨hxa, htail⟩ := List.cons.inj hsplit
          obtain ⟨hyb, _⟩ := List.cons.inj htail
          subst hxa
          subst hyb
          have hx2 : x ∈ L := hmemL x (h1.subset (by simp))
          have hy2 : y ∈ L := hmemL y (h1.subset (by simp))
          rw [List.indexOf_append_of_mem hx2, List.indexOf_append_of_mem hy2]
          exact ih h1

/-- A third well-formed row at 12:00 local, application `"dd.ee"` (resolved
name `"ee"`). -/
def rowC : Row :=
  { formattedText := "third transcript", timestamp := "2026-03-02 12:00:00",
    app := some "dd.ee", numWords := some 7, duration := some 4 }

/-- C1 (amended): `appsSorted` groups rows by resolved display name (each
name appears exactly once, with the count and word total of the rows
resolving to it) and is sorted descending by count; among buckets of equal
count whose names are not canonical array-index strings, the bucket whose
first event appears earlier in the (timestamp-ordered) row list ranks first.
Buckets whose resolved name is a canonical array-index string (e.g. `"7"`)
are ordered first in ascending numeric order by `Object.entries` before the
stable sort, so such a bucket wins a tie against an earlier-encountered
non-numeric name — the unqualified first-encountered tie-break of the claim
does not hold for them (see the counterexample). -/
theorem app_breakdown_amended (rows : List Row) :
    ((appsSorted rows).map Prod.fst).Nodup ∧
    (∀ nm, nm ∈ (appsSorted rows).map Prod.fst ↔ ∃ r ∈ rows, resolvedName r = nm) ∧
    (∀ p ∈ appsSorted rows,
      p.2.count = cntApp rows p.1 ∧ p.2.words = wordsApp rows p.1) ∧
    ((appsSorted rows).Pairwise (fun a b => b.2.count ≤ a.2.count)) ∧
    (∀ x y, [x, y].Sublist (appsSorted rows) → x.2.count = y.2.count →
      strIdx x.1 = none → strIdx y.1 = none →
      (rows.map resolvedName).indexOf x.1 < (rows.map resolvedName).indexOf y.1) := by
  have hperm := appsSorted_perm rows
  have hkeysnd := appMap_keys_nodup rows
  have hmapnd : (appMap rows).Nodup := List.Nodup.of_map Prod.fst hkeysnd
  have houtnd : (appsSorted rows).Nodup := hperm.nodup_iff.mpr hmapnd
  refine ⟨?_, ?_, ?_, ?_, ?_⟩
  · exact (hperm.map Prod.fst).nodup_iff.mpr hkeysnd
  · intro nm
    have h1 : nm ∈ (appsSorted rows).map Prod.fst ↔ nm ∈ keysOf (appMap rows) :=
      (hperm.map Prod.fst).mem_iff
    rw [h1, appMap_keys]
    rw [firstOccAux_mem]
    simp [List.mem_map]
  · intro p hp
    have hmem : p ∈ appMap rows := hperm.subset hp
    have hl : lookupV p.1 (appMap rows) = some p.2 :=
      (mem_iff_lookupV p.1 p.2 (appMap rows) hkeysnd).mp (by simpa using hmem)
    have hchar := appMap_lookup rows p.1
    rw [hl] at hchar
    simp only [Option.elim_some] at hchar
    exact ⟨hchar.1, hchar.2.1⟩
  · have hpw := sortByRank_pairwise
      (fun p : String × AppStats => -(p.2.count : Int)) (jsEntries strIdx (appMap rows))
    refine hpw.imp ?_
    intro a b hab
    have hab2 : -(a.2.count : Int) ≤ -(b.2.count : Int) := hab
    omega
  · intro x y hxy hcnt hix hiy
    have hxne : x ≠ y := by
      intro he
      subst he
      exact sublist_pair_asymm houtnd hxy hxy
    have hperm1 : (appsSorted rows).Perm (jsEntries strIdx (appMap rows)) :=
      sortByRank_perm _ _
    have hEnd : (jsEntries strIdx (appMap rows)).Nodup := hperm1.nodup_iff.mp houtnd
    have hxE : x ∈ jsEntries strIdx (appMap rows) :=
      hperm1.subset (hxy.subset (by simp))
    have hyE : y ∈ jsEntries strIdx (appMap rows) :=
      hperm1.subset (hxy.subset (by simp))
    have hxyE : [x, y].Sublist (jsEntries strIdx (appMap rows)) := by
      rcases sublist_pair_total hxE hyE hxne with h | h
      · exact h
      · exfalso
        have hst := sortByRank_stable (fun p : String × AppStats => -(p.2.count : Int))
          h (by show -(y.2.count : Int) ≤ -(x.2.count : Int); omega)
        exact sublist_pair_asymm houtnd hxy hst
    have hxm : x ∈ appMap rows := (jsEntries_perm strIdx (appMap rows)).subset hxE
    have hym : y ∈ appMap rows := (jsEntries_perm strIdx (appMap rows)).subset hyE
    have hxym : [x, y].Sublist (appMap rows) := by
      rcases sublist_pair_total hxm hym hxne with h | h
      · exact h
      · exfalso
        have h2 := jsEntries_str_pair strIdx h hiy hix
        exact sublist_pair_asymm hEnd hxyE h2
    have hkeys : [x.1, y.1].Sublist (keysOf (appMap rows)) := by
      have := hxym.map Prod.fst
      simpa [keysOf] using this
    rw [appMap_keys] at hkeys
    exact firstOccAux_pair (rows.map resolvedName) hkeys

/-- C1 (counterexample to the claim as stated): two applications with equal
event counts; `"bb"`'s only event comes first in timestamp order, yet the
rendered breakdown ranks `"7"` first, because `Object.entries` enumerates
the canonical array-index key `"7"` before the insertion-ordered string
keys, and the stable sort keeps that order on the tie. -/
theorem app_breakdown_tie_counterexample :
    resolvedName rowA = "bb" ∧ resolvedName rowB = "7" ∧
    rowA.timestamp = "2026-03-02 10:15:00" ∧ rowB.timestamp = "2026-03-02 11:20:00" ∧
    cntApp [rowA, rowB] "bb" = 1 ∧ cntApp [rowA, rowB] "7" = 1 ∧
    (appsSorted [rowA, rowB]).map Prod.fst = ["7", "bb"] ∧
    ([rowA, rowB].map resolvedName).indexOf "bb" <
      ([rowA, rowB].map resolvedName).indexOf "7" :=
  ⟨by decide, by decide, by decide, by decide, by decide, by decide, by decide⟩

/-- Witness for C1 (amended) on a concrete tie between two non-numeric
names: `"bb"` (first event earlier) ranks before `"ee"`. -/
theorem app_breakdown_amended_witness :
    ((appsSorted [rowA, rowC]).map Prod.fst = ["bb", "ee"]) ∧
    ([rowA, rowC].map resolvedName).indexOf "bb" <
      ([rowA, rowC].map resolvedName).indexOf "ee" ∧
    ((appsSorted [rowA, rowC]).map Prod.fst).Nodup := by
  have h := app_breakdown_amended [rowA, rowC]
  refine ⟨by decide, ?_, h.1⟩
  exact h.2.2.2.2 ("bb", { count := 1, words := 5, bundleId := "aa.bb" })
    ("ee", { count := 1, words := 7, bundleId := "dd.ee" })
    (by decide) (by decide) (by decide) (by decide)

/-! ## Claim C9: percentages -/

lemma appsSorted_count_total (rows : List Row) :
    (((appsSorted rows).map (fun p => p.2.count)).sum) = rows.length := by
  have hperm := (appsSorted_perm rows).map (fun p => p.2.count)
  rw [hperm.sum_eq]
  exact appMap_count_total rows

lemma appsSorted_ne_nil (rows : List Row) (h : rows ≠ []) :
    appsSorted rows ≠ [] := by
  obtain ⟨r0, rt, hrows⟩ : ∃ r t, rows = r :: t := by
    cases rows with
    | nil => exact absurd rfl h
    | cons r t => exact ⟨r, t, rfl⟩
  intro h0
  have hl := (appsSorted_perm rows).length_eq
  rw [h0] at hl
  have hmap : appMap rows = [] := List.length_eq_zero.mp hl.symm
  have hcnt : 0 < cntApp rows (resolvedName r0) := by
    unfold cntApp
    rw [hrows, List.filter_cons_of_pos (by simp)]
    simp
  have hiso := (appMap_lookup rows (resolvedName r0)).2.2.mpr hcnt
  rw [hmap] at hiso
  simp [lookupV] at hiso

/-! ## Binary64 arithmetic for the rendered percentages -/

/-- `2 ^ e` as a rational, for an integer exponent. -/
def pow2 (e : Int) : ℚ := (2 : ℚ) ^ e

/-- Smallest `k` with `b ≤ a * 2 ^ k`, fuel-bounded (fuel `b` suffices when
`0 < a`). -/
def upExp : Nat → Nat → Nat → Nat
  | 0, _, _ => 0
  | f + 1, a, b => if b ≤ a then 0 else upExp f (2 * a) b + 1

/-- Largest `e` with `b * 2 ^ e ≤ a` given `b ≤ a`, fuel-bounded. -/
def downExp : Nat → Nat → Nat → Nat
  | 0, _, _ => 0
  | f + 1, a, b => if b * 2 ≤ a then downExp f a (b * 2) + 1 else 0

/-- `⌊log₂ x⌋` of a positive rational. -/
def flog2q (x : ℚ) : Int :=
  if 1 ≤ x then (downExp x.num.toNat x.num.toNat x.den : Int)
  else -(upExp x.den x.num.toNat x.den : Int)

/-- The integer nearest to `t`, ties to even. -/
def rndInt (t : ℚ) : Int :=
  if 1 / 2 < t - ⌊t⌋ then ⌊t⌋ + 1
  else if t - ⌊t⌋ < 1 / 2 then ⌊t⌋
  else if ⌊t⌋ % 2 = 0 then ⌊t⌋ else ⌊t⌋ + 1

/-- Binary64 (IEEE 754 double) rounding of a non-negative rational to
nearest, ties to even: the 53-bit significand is the integer nearest to
`x * 2 ^ (52 - e)` where `e = ⌊log₂ x⌋`.  Exponent overflow and subnormals
(unreachable for the percentage arithmetic at hand) are not modelled. -/
def rnd (x : ℚ) : ℚ :=
  if x ≤ 0 then 0
  else (rndInt (x * pow2 (52 - flog2q x)) : ℚ) * pow2 (flog2q x - 52)

/-- `Math.round((count / total) * 100)` as the scripts' JavaScript computes
it: `count / total` is the correctly rounded binary64 quotient, the product
with 100 is again correctly rounded, and `Math.round` returns the integer
nearest to the resulting double with ties toward `+∞` (`⌊y + 1/2⌋` on the
exact value `y` of that double). -/
def pctJS (c T : Nat) : Int :=
  ⌊rnd (rnd ((c : ℚ) / (T : ℚ)) * 100) + 1 / 2⌋

lemma pow2_pos (e : Int) : 0 < pow2 e := zpow_pos (by norm_num) e

lemma pow2_add (a b : Int) : pow2 (a + b) = pow2 a * pow2 b :=
  zpow_add₀ (by norm_num) a b

lemma upExp_le : ∀ (f a b : Nat), 0 < a → b ≤ a * 2 ^ f →
    b ≤ a * 2 ^ upExp f a b := by
  intro f
  induction f with
  | zero => intro a b _ h; simpa [upExp] using h
  | succ g ih =>
    intro a b ha h
    show b ≤ a * 2 ^ (if b ≤ a then 0 else upExp g (2 * a) b + 1)
    by_cases hba : b ≤ a
    · rw [if_pos hba]; simpa using hba
    · rw [if_neg hba]
      have h2 : b ≤ 2 * a * 2 ^ g := by
        calc b ≤ a * 2 ^ (g + 1) := h
          _ = 2 * a * 2 ^ g := by ring
      have h3 := ih (2 * a) b (by omega) h2
      calc b ≤ 2 * a * 2 ^ upExp g (2 * a) b := h3
        _ = a * 2 ^ (upExp g (2 * a) b + 1) := by ring

lemma downExp_le : ∀ (f a b : Nat), 0 < b → b ≤ a → b * 2 ^ downExp f a b ≤ a := by
  intro f
  induction f with
  | zero => intro a b _ h; simpa [downExp] using h
  | succ g ih =>
    intro a b hb h
    show b * 2 ^ (if b * 2 ≤ a then downExp g a (b * 2) + 1 else 0) ≤ a
    by_cases h2 : b * 2 ≤ a
    · rw [if_pos h2]
      have h3 := ih a (b * 2) (by omega) h2
      calc b * 2 ^ (downExp g a (b * 2) + 1) = b * 2 * 2 ^ downExp g a (b * 2) := by
            ring
        _ ≤ a := h3
    · rw [if_neg h2]; simpa using h

/-- The computed exponent never overshoots: `2 ^ flog2q x ≤ x`. -/
lemma flog2q_le (x : ℚ) (hx : 0 < x) : pow2 (flog2q x) ≤ x := by
  have hnum : 0 < x.num := Rat.num_pos.mpr hx
  have hden : 0 < x.den := x.den_pos
  have hxe : x = (x.num : ℚ) / (x.den : ℚ) := (Rat.num_div_den x).symm
  have hdq : (0 : ℚ) < (x.den : ℚ) := by exact_mod_cast hden
  set p : Nat := x.num.toNat with hp
  have hpn : (p : ℤ) = x.num := Int.toNat_of_nonneg hnum.le
  have hp0 : 0 < p := by omega
  have hpq : ((p : Nat) : ℚ) = ((x.num : ℤ) : ℚ) := by exact_mod_cast hpn
  unfold flog2q
  by_cases h1 : 1 ≤ x
  · rw [if_pos h1]
    have hdn : x.den ≤ p := by
      rw [hxe, le_div_iff₀ hdq, one_mul] at h1
      have h1' : (x.den : ℚ) ≤ ((p : Nat) : ℚ) := by rw [hpq]; exact h1
      exact_mod_cast h1'
    set k := downExp p p x.den with hk
    have key : x.den * 2 ^ k ≤ p := downExp_le p p x.den hden hdn
    have h2k : pow2 (k : Int) = ((2 ^ k : Nat) : ℚ) := by
      rw [pow2, zpow_natCast]; push_cast; ring
    rw [hxe, h2k, le_div_iff₀ hdq]
    have hc : ((x.den * 2 ^ k : Nat) : ℚ) ≤ ((p : Nat) : ℚ) := by exact_mod_cast key
    push_cast at hc
    rw [hpq] at hc
    push_cast
    linarith
  · rw [if_neg h1]
    have hfuel : x.den ≤ p * 2 ^ x.den := by
      have h2 : x.den < 2 ^ x.den := Nat.lt_two_pow x.den
      calc x.den ≤ 2 ^ x.den := h2.le
        _ ≤ p * 2 ^ x.den := Nat.le_mul_of_pos_left _ hp0
    set k := upExp x.den p x.den with hk
    have key : x.den ≤ p * 2 ^ k := upExp_le x.den p x.den hp0 hfuel
    have h2k : pow2 (-(k : Int)) = (((2 ^ k : Nat) : ℚ))⁻¹ := by
      rw [pow2, zpow_neg, zpow_natCast]; push_cast; ring
    have hpk : (0 : ℚ) < ((2 ^ k : Nat) : ℚ) := by positivity
    rw [hxe, h2k, le_div_iff₀ hdq, inv_mul_le_iff₀ hpk]
    have hc : ((x.den : Nat) : ℚ) ≤ ((p * 2 ^ k : Nat) : ℚ) := by exact_mod_cast key
    push_cast at hc
    rw [hpq] at hc
    push_cast
    linarith

lemma rndInt_err (t : ℚ) : |(rndInt t : ℚ) - t| ≤ 1 / 2 := by
  have h1 := Int.floor_le t
  have h2 := Int.lt_floor_add_one t
  unfold rndInt
  split_ifs with ha hb hc
  · rw [abs_le]; push_cast; constructor <;> linarith
  · rw [abs_le]; constructor <;> linarith
  · rw [abs_le]; constructor <;> linarith
  · rw [abs_le]; push_cast; constructor <;> linarith

/-- Correct rounding is exact to within half an ulp:
`|rnd x - x| ≤ x · 2⁻⁵³` for positive `x`. -/
lemma rnd_err (x : ℚ) (hx : 0 < x) : |rnd x - x| ≤ x * pow2 (-53) := by
  rw [rnd, if_neg (not_le.mpr hx)]
  set e := flog2q x with he
  have hs : pow2 (52 - e) * pow2 (e - 52) = 1 := by
    rw [← pow2_add, show 52 - e + (e - 52) = 0 by ring]
    simp [pow2]
  have hxs : x * pow2 (52 - e) * pow2 (e - 52) = x := by
    rw [mul_assoc, hs, mul_one]
  have herr := rndInt_err (x * pow2 (52 - e))
  have hpos : (0 : ℚ) < pow2 (e - 52) := pow2_pos _
  have hhalf : (1 : ℚ) / 2 = pow2 (-1) := by
    rw [pow2]
    norm_num
  calc |(rndInt (x * pow2 (52 - e)) : ℚ) * pow2 (e - 52) - x|
      = |((rndInt (x * pow2 (52 - e)) : ℚ) - x * pow2 (52 - e)) * pow2 (e - 52)| := by
        rw [sub_mul, hxs]
    _ = |(rndInt (x * pow2 (52 - e)) : ℚ) - x * pow2 (52 - e)| * pow2 (e - 52) := by
        rw [abs_mul, abs_of_pos hpos]
    _ ≤ (1 / 2) * pow2 (e - 52) := mul_le_mul_of_nonneg_right herr hpos.le
    _ = pow2 e * pow2 (-53) := by
        rw [hhalf, ← pow2_add, ← pow2_add]
        congr 1
        ring
    _ ≤ x * pow2 (-53) :=
        mul_le_mul_of_nonneg_right (flog2q_le x hx) (pow2_pos _).le

lemma pow2_m53_small : pow2 (-53) ≤ 1 / 1000 := by
  rw [pow2, show (-53 : ℤ) = -(53 : ℕ) by norm_num, zpow_neg, zpow_natCast]
  norm_num

/-- The doubly rounded percentage stays strictly within 1 of the exact
rational percentage. -/
lemma pctJS_rat_bounds (c T : Nat) (hc : 0 < c) (hct : c ≤ T) :
    100 * (c : ℚ) / T - 1 < (pctJS c T : ℚ) ∧ (pctJS c T : ℚ) < 100 * c / T + 1 := by
  have hT : 0 < T := lt_of_lt_of_le hc hct
  have hTq : (0 : ℚ) < (T : ℚ) := by exact_mod_cast hT
  have hpdef : pctJS c T = ⌊rnd (rnd ((c : ℚ) / (T : ℚ)) * 100) + 1 / 2⌋ := rfl
  set x : ℚ := (c : ℚ) / (T : ℚ) with hxdef
  have hx : 0 < x := div_pos (by exact_mod_cast hc) hTq
  have hx1 : x ≤ 1 := by rw [hxdef, div_le_one hTq]; exact_mod_cast hct
  set u : ℚ := pow2 (-53) with hu
  have hu0 : 0 < u := pow2_pos _
  have hus : u ≤ 1 / 1000 := pow2_m53_small
  set z : ℚ := rnd x with hz
  have h1 := abs_le.mp (rnd_err x hx)
  have hxu : x * u ≤ 1 / 1000 := by
    have hm := mul_le_mul hx1 hus hu0.le (by norm_num : (0 : ℚ) ≤ 1)
    linarith
  have hxuu : x * u * u ≤ 1 / 1000 * (1 / 1000) :=
    mul_le_mul hxu hus hu0.le (by norm_num)
  have hz0 : 0 < z := by
    have hexp : x * (1 - u) = x - x * u := by ring
    have hposm : 0 < x * (1 - u) := mul_pos hx (by linarith)
    linarith
  set y : ℚ := rnd (z * 100) with hy
  have h2 := abs_le.mp (rnd_err (z * 100) (by linarith))
  have e1 : z ≤ x + x * u := by linarith [h1.2]
  have e5 : x - x * u ≤ z := by linarith [h1.1]
  have e2 : y ≤ z * 100 + z * 100 * u := by linarith [h2.2]
  have e6 : z * 100 - z * 100 * u ≤ y := by linarith [h2.1]
  have e3 : z * (1 + u) ≤ (x + x * u) * (1 + u) :=
    mul_le_mul_of_nonneg_right e1 (by linarith)
  have e7 : (x - x * u) * (1 - u) ≤ z * (1 - u) :=
    mul_le_mul_of_nonneg_right e5 (by linarith)
  have hub : y ≤ 100 * x + 3 / 10 := by nlinarith [e2, e3, hxu, hxuu]
  have hlb : 100 * x - 3 / 10 ≤ y := by nlinarith [e6, e7, hxu, hxuu]
  have hp1 : (pctJS c T : ℚ) ≤ y + 1 / 2 := by
    rw [hpdef]
    exact Int.floor_le _
  have hp2 : y + 1 / 2 < (pctJS c T : ℚ) + 1 := by
    rw [hpdef]
    exact Int.lt_floor_add_one _
  have h100 : 100 * (c : ℚ) / T = 100 * x := by rw [hxdef]; ring
  rw [h100]
  constructor <;> linarith

/-- Integer form of the per-bucket bound: `|T·p − 100·c| ≤ T − 1`. -/
lemma pctJS_int_bounds (c T : Nat) (hc : 0 < c) (hct : c ≤ T) :
    (T : ℤ) * pctJS c T ≤ 100 * c + T - 1 ∧
    100 * (c : ℤ) - T + 1 ≤ T * pctJS c T := by
  have hT : 0 < T := lt_of_lt_of_le hc hct
  have hTq : (0 : ℚ) < (T : ℚ) := by exact_mod_cast hT
  obtain ⟨hlo, hhi⟩ := pctJS_rat_bounds c T hc hct
  have he : (T : ℚ) * (100 * c / T + 1) = 100 * c + T := by field_simp
  have he2 : (T : ℚ) * (100 * c / T - 1) = 100 * c - T := by field_simp
  constructor
  · have hq : (T : ℚ) * (pctJS c T : ℚ) < 100 * (c : ℚ) + T := by
      calc (T : ℚ) * (pctJS c T : ℚ) < (T : ℚ) * (100 * c / T + 1) :=
            (mul_lt_mul_left hTq).mpr hhi
        _ = 100 * c + T := he
    have hz : (T : ℤ) * pctJS c T < 100 * c + T := by exact_mod_cast hq
    omega
  · have hq : 100 * (c : ℚ) - T < (T : ℚ) * (pctJS c T : ℚ) := by
      calc 100 * (c : ℚ) - T = (T : ℚ) * (100 * c / T - 1) := he2.symm
        _ < (T : ℚ) * (pctJS c T : ℚ) := (mul_lt_mul_left hTq).mpr hlo
    have hz : 100 * (c : ℤ) - T < T * pctJS c T := by exact_mod_cast hq
    omega

lemma pctJS_sum_bounds (T : Nat) (cs : List Nat) (hcs : ∀ c ∈ cs, 0 < c ∧ c ≤ T) :
    (T : ℤ) * ((cs.map (fun c => pctJS c T)).sum) ≤
      100 * cs.sum + cs.length * T - cs.length ∧
    100 * (cs.sum : ℤ) - cs.length * T + cs.length ≤
      T * ((cs.map (fun c => pctJS c T)).sum) := by
  induction cs with
  | nil => simp
  | cons c t ih =>
    obtain ⟨hc, hct⟩ := hcs c (by simp)
    obtain ⟨e1, e2⟩ := pctJS_int_bounds c T hc hct
    obtain ⟨i1, i2⟩ := ih (fun d hd => hcs d (by simp [hd]))
    constructor
    · calc (T : ℤ) * ((List.map (fun c => pctJS c T) (c :: t)).sum)
          = T * pctJS c T + T * ((t.map (fun c => pctJS c T)).sum) := by
            simp only [List.map_cons, List.sum_cons]
            ring
        _ ≤ (100 * c + T - 1) + (100 * t.sum + t.length * T - t.length) :=
            add_le_add e1 i1
        _ = 100 * (c :: t).sum + (c :: t).length * T - (c :: t).length := by
            simp only [List.sum_cons, List.length_cons]
            push_cast
            ring
    · calc 100 * ((c :: t).sum : ℤ) - (c :: t).length * T + (c :: t).length
          = (100 * c - T + 1) + (100 * (t.sum : ℤ) - t.length * T + t.length) := by
            simp only [List.sum_cons, List.length_cons]
            push_cast
            ring
        _ ≤ T * pctJS c T + T * ((t.map (fun c => pctJS c T)).sum) := add_le_add e2 i2
        _ = T * ((List.map (fun c => pctJS c T) (c :: t)).sum) := by
            simp only [List.map_cons, List.sum_cons]
            ring

/-- Every bucket of the sorted app breakdown has a positive count bounded
by the number of rows. -/
lemma appsSorted_count_pos_le (rows : List Row) (p : String × AppStats)
    (hp : p ∈ appsSorted rows) :
    0 < p.2.count ∧ p.2.count ≤ totalDictations rows := by
  have hmem : p ∈ appMap rows := (appsSorted_perm rows).mem_iff.mp hp
  have hnd := appMap_keys_nodup rows
  have hlk : lookupV p.1 (appMap rows) = some p.2 :=
    (mem_iff_lookupV p.1 p.2 (appMap rows) hnd).mp hmem
  obtain ⟨hcnt, _, hiso⟩ := appMap_lookup rows p.1
  rw [hlk] at hcnt hiso
  rw [Option.elim_some] at hcnt
  constructor
  · rw [hcnt]
    exact hiso.mp rfl
  · rw [hcnt]
    exact List.length_filter_le _ _

/-- C9 (amended): each rendered application percentage is
`Math.round((count/total) * 100)` computed in binary64 (`pctJS`); the two
roundings keep it strictly within 1 of the exact rational percentage
(`|T·p − 100·c| ≤ T − 1` per bucket), and for the `N ≥ 1` buckets the sum
`S` of the rendered percentages still satisfies `|S − 100| ≤ N − 1`
(`101 ≤ S + N` and `S ≤ 99 + N`).  Exact round-half-up of the rational
percentage does NOT hold of the program: the double product can land just
below an exact half (see the counterexample). -/
theorem pct_double_rounding_and_sum (rows : List Row) (hne : rows ≠ []) :
    (∀ p ∈ appsSorted rows,
      (totalDictations rows : ℤ) * pctJS p.2.count (totalDictations rows) ≤
        100 * p.2.count + totalDictations rows - 1 ∧
      100 * (p.2.count : ℤ) - totalDictations rows + 1 ≤
        totalDictations rows * pctJS p.2.count (totalDictations rows)) ∧
    1 ≤ (appsSorted rows).length ∧
    ((101 : ℤ) ≤ ((appsSorted rows).map
        (fun p => pctJS p.2.count (totalDictations rows))).sum +
        (appsSorted rows).length ∧
    ((appsSorted rows).map
        (fun p => pctJS p.2.count (totalDictations rows))).sum ≤
        99 + ((appsSorted rows).length : ℤ)) := by
  have hT : 0 < totalDictations rows := by
    unfold totalDictations
    cases rows with
    | nil => exact absurd rfl hne
    | cons r t => simp
  have hN : 1 ≤ (appsSorted rows).length :=
    List.length_pos.mpr (appsSorted_ne_nil rows hne)
  have hmapeq : ((appsSorted rows).map
      (fun p => pctJS p.2.count (totalDictations rows))) =
      ((appsSorted rows).map (fun p => p.2.count)).map
        (fun c => pctJS c (totalDictations rows)) := by
    rw [List.map_map]
    rfl
  have hsum : ((101 : ℤ) ≤ (((appsSorted rows).map (fun p => p.2.count)).map
        (fun c => pctJS c (totalDictations rows))).sum +
        (appsSorted rows).length ∧
      (((appsSorted rows).map (fun p => p.2.count)).map
        (fun c => pctJS c (totalDictations rows))).sum ≤
        99 + ((appsSorted rows).length : ℤ)) := by
    obtain ⟨S1, S2⟩ := pctJS_sum_bounds (totalDictations rows)
      ((appsSorted rows).map (fun p => p.2.count))
      (fun c hc => by
        rcases List.mem_map.mp hc with ⟨p, hp, rfl⟩
        exact appsSorted_count_pos_le rows p hp)
    have hTd : rows.length = totalDictations rows := rfl
    rw [appsSorted_count_total, List.length_map, hTd] at S1 S2
    generalize hg1 : (((appsSorted rows).map (fun p => p.2.count)).map
      (fun c => pctJS c (totalDictations rows))).sum = S at S1 S2 ⊢
    generalize hg2 : (appsSorted rows).length = N at S1 S2 hN ⊢
    generalize hg3 : totalDictations rows = T at S1 S2 hT ⊢
    have hTq : (0 : ℤ) < (T : ℤ) := by exact_mod_cast hT
    have hNq : (1 : ℤ) ≤ (N : ℤ) := by exact_mod_cast hN
    constructor
    · have h3 : (T : ℤ) * (100 - N) < T * S := by nlinarith [S2, hNq, hTq]
      have h4 : (100 - (N : ℤ)) < S := lt_of_mul_lt_mul_left h3 hTq.le
      linarith
    · have h1 : (T : ℤ) * S < T * (100 + N) := by nlinarith [S1, hNq, hTq]
      have h2 : S < 100 + (N : ℤ) := lt_of_mul_lt_mul_left h1 hTq.le
      linarith
  refine ⟨fun p hp => pctJS_int_bounds p.2.count (totalDictations rows)
      (appsSorted_count_pos_le rows p hp).1 (appsSorted_count_pos_le rows p hp).2,
    hN, ?_, ?_⟩
  · rw [hmapeq]
    exact hsum.1
  · rw [hmapeq]
    exact hsum.2

/-- Twenty-nine rows resolving to `"bb"` and 171 resolving to `"ee"`:
200 dictations in total, so the `"bb"` bucket prints `pctJS 29 200`. -/
def pctRows : List Row := List.replicate 29 rowA ++ List.replicate 171 rowC

unseal Rat.mul Rat.inv Rat.sub Rat.add in
/-- C9 (counterexample): at the reachable input count = 29, total = 200 the
exact percentage is 14.5, whose round-half-up is 15 (`pctOf`); but the
binary64 quotient 29/200 is `5224175567749775·2⁻⁵⁵ < 0.145`, its product
with 100 rounds to `8162774324609023·2⁻⁴⁹ = 14.499999999999998 < 14.5`, and
`Math.round` returns 14 — the program does not round the exact percentage
half up. -/
theorem pct_half_up_counterexample :
    totalDictations pctRows = 200 ∧
    (lookupV "bb" (appMap pctRows)).elim 0 AppStats.count = 29 ∧
    (100 : ℚ) * 29 / 200 = 29 / 2 ∧
    pctOf 29 200 = 15 ∧
    rnd ((29 : ℚ) / 200) = 5224175567749775 / 2 ^ 55 ∧
    rnd (rnd ((29 : ℚ) / 200) * 100) = 8162774324609023 / 2 ^ 49 ∧
    pctJS 29 200 = 14 :=
  ⟨by decide, by decide, by decide, by decide, by decide, by decide, by decide⟩

unseal Rat.mul Rat.inv Rat.sub Rat.add in
/-- Witness for C9 at three rows over two applications (counts 2 and 1 of a
total 3): the doubles 66.66666666666666 and 33.333333333333336 round to 67
and 33, summing to 100. -/
theorem pct_double_rounding_and_sum_witness :
    (([rowA, rowB, rowA] : List Row) ≠ []) ∧
    pctJS 2 3 = 67 ∧ pctJS 1 3 = 33 ∧
    ((appsSorted [rowA, rowB, rowA]).map
      (fun p => pctJS p.2.count (totalDictations [rowA, rowB, rowA]))).sum = 100 ∧
    ((101 : ℤ) ≤ ((appsSorted [rowA, rowB, rowA]).map
        (fun p => pctJS p.2.count (totalDictations [rowA, rowB, rowA]))).sum +
        (appsSorted [rowA, rowB, rowA]).length ∧
    ((appsSorted [rowA, rowB, rowA]).map
        (fun p => pctJS p.2.count (totalDictations [rowA, rowB, rowA]))).sum ≤
        99 + ((appsSorted [rowA, rowB, rowA]).length : ℤ)) :=
  ⟨by decide, by decide, by decide, by decide,
   (pct_double_rounding_and_sum [rowA, rowB, rowA] (by decide)).2.2⟩

/-! ## Claim C2: gap-filled daily breakdowns -/

lemma daysFromCivil_shift (y m d : Int) :
    daysFromCivil (y + 400) m d = daysFromCivil y m d + 146097 := by
  simp only [daysFromCivil]
  split_ifs <;> omega

lemma civilFromDays_day_shift (n : Int) :
    (civilFromDays (n + 146097)).2.2 = (civilFromDays n).2.2 := by
  simp only [civilFromDays]
  have h : (n + 146097 + 719468) - ((n + 146097 + 719468) / 146097) * 146097 =
      (n + 719468) - ((n + 719468) / 146097) * 146097 := by omega
  rw [h]

lemma daysInMonthJS_shift (y m : Int) :
    daysInMonthJS (y + 400) m = daysInMonthJS y m := by
  unfold daysInMonthJS jsMakeDay
  have e1 : y + 400 + m / 12 = (y + m / 12) + 400 := by ring
  rw [e1, daysFromCivil_shift]
  have e2 : daysFromCivil (y + m / 12) (m % 12 + 1) 1 + 146097 + (0 - 1) =
      (daysFromCivil (y + m / 12) (m % 12 + 1) 1 + (0 - 1)) + 146097 := by ring
  rw [e2, civilFromDays_day_shift]

lemma daysInMonthJS_mod (y m : Int) :
    daysInMonthJS y m = daysInMonthJS (y % 400) m := by
  have key : ∀ (k r : Int), daysInMonthJS (400 * k + r) m = daysInMonthJS r m := by
    intro k
    induction k using Int.induction_on with
    | hz => intro r; norm_num
    | hp n ih =>
      intro r
      have e : 400 * ((n : Int) + 1) + r = (400 * (n : Int) + r) + 400 := by ring
      rw [e, daysInMonthJS_shift]
      exact ih r
    | hn n ih =>
      intro r
      have h2 := daysInMonthJS_shift (400 * (-(n : Int) - 1) + r) m
      have e : 400 * (-(n : Int) - 1) + r + 400 = 400 * (-(n : Int)) + r := by ring
      rw [e] at h2
      exact h2.symm.trans (ih r)
  have hy : y = 400 * (y / 400) + y % 400 := by omega
  calc daysInMonthJS y m = daysInMonthJS (400 * (y / 400) + y % 400) m := by rw [← hy]
    _ = daysInMonthJS (y % 400) m := key _ _

set_option maxHeartbeats 2000000 in
lemma daysInMonthJS_base : ∀ r : Nat, r < 400 → ∀ mm : Nat, mm < 12 →
    28 ≤ daysInMonthJS (r : Int) ((mm : Int) + 1) ∧
    daysInMonthJS (r : Int) ((mm : Int) + 1) ≤ 31 := by decide

/-- The month length computed by `lastDay.getDate()` is one of 28…31, for
every year (reduced to years 0…399 by the 400-year periodicity of the
calendar). -/
lemma daysInMonthJS_bounds (y m : Int) (h1 : 1 ≤ m) (h2 : m ≤ 12) :
    28 ≤ daysInMonthJS y m ∧ daysInMonthJS y m ≤ 31 := by
  rw [daysInMonthJS_mod]
  have hrn : (y % 400) = (((y % 400).toNat : Nat) : Int) := by omega
  have hmn : m = (((m - 1).toNat : Nat) : Int) + 1 := by omega
  rw [hrn, hmn]
  exact daysInMonthJS_base (y % 400).toNat (by omega) (m - 1).toNat (by omega)

lemma fillRangeAux_eq : ∀ (k : Nat) (s : Int),
    fillRangeAux k s = (List.range k).map (fun (i : Nat) => s + (i : Int)) := by
  intro k
  induction k with
  | zero => intro s; rfl
  | succ n ih =>
    intro s
    show s :: fillRangeAux n (s + 1) = _
    rw [ih (s + 1), List.range_succ_eq_map, List.map_cons, List.map_map]
    congr 1
    · simp
    · refine List.map_congr_left ?_
      intro i _
      simp only [Function.comp_apply]
      push_cast
      ring

lemma fillRange_eq (k : Nat) (s : Int) :
    fillRange s (s + (k : Int)) = (List.range (k + 1)).map (fun (i : Nat) => s + (i : Int)) := by
  unfold fillRange
  have h : (s + (k : Int) + 1 - s).toNat = k + 1 := by omega
  rw [h, fillRangeAux_eq]

lemma getD_count_eq_elim (ov : Option DayStats) :
    (ov.getD ⟨0, 0, 0, []⟩).count = ov.elim 0 DayStats.count := by
  cases ov <;> rfl

lemma weeklyDaySorted_spec (o s : Int) (rows : List Row) :
    (weeklyDaySorted o s (s + 6) rows).length = 7 ∧
    (weeklyDaySorted o s (s + 6) rows).map (fun e => e.date) =
      (List.range 7).map (fun (i : Nat) => renderIsoDate (isoDateOfLocalNoon o (s + (i : Int)))) ∧
    ∀ e ∈ weeklyDaySorted o s (s + 6) rows, e.count = cntDay rows e.date := by
  have hfr : fillRange s (s + 6) = (List.range 7).map (fun (i : Nat) => s + (i : Int)) := by
    have h6 : (6 : Int) = ((6 : Nat) : Int) := rfl
    rw [h6, fillRange_eq 6 s]
  unfold weeklyDaySorted
  rw [hfr]
  refine ⟨by simp, ?_, ?_⟩
  · simp only [List.map_map]
    rfl
  · intro e he
    rcases List.mem_map.mp he with ⟨n, _, rfl⟩
    show ((lookupV (renderIsoDate (isoDateOfLocalNoon o n)) (dayMap rows)).getD
        ⟨0, 0, 0, []⟩).count = cntDay rows (renderIsoDate (isoDateOfLocalNoon o n))
    rw [getD_count_eq_elim, dayMap_lookup]

lemma allDays_spec (y m : Int) (rows : List Row) :
    (allDays y m rows).length = (daysInMonthJS y m).toNat ∧
    (allDays y m rows).map (fun e => e.date) =
      (List.range (daysInMonthJS y m).toNat).map (fun i => monthKey y m (i + 1)) ∧
    ∀ e ∈ allDays y m rows, e.count = cntDay rows e.date := by
  unfold allDays
  refine ⟨by simp, ?_, ?_⟩
  · simp only [List.map_map]
    rfl
  · intro e he
    rcases List.mem_map.mp he with ⟨i, _, rfl⟩
    show ((lookupV (monthKey y m (i + 1)) (dayMap rows)).getD
        ⟨0, 0, 0, []⟩).count = cntDay rows (monthKey y m (i + 1))
    rw [getD_count_eq_elim, dayMap_lookup]

/-- C2: in any environment whose UTC offset lies in (-12 h, +12 h], the
weekly "fill in missing days" output has exactly one entry per civil day of
the resolved week `[s, s + 6]` (7 entries, dated `s, s+1, …, s+6` in
order); the monthly `allDays` output has exactly one entry per day
`1 … daysInMonth` of the calendar month in every environment, with
`28 ≤ daysInMonth ≤ 31`; in both, the count of every entry is the number of
rows whose timestamp date equals that entry's key, so days without events
carry count 0.  Outside the offset band the weekly keys shift one day:
see `gap_filling_offset_counterexample`. -/
theorem gap_filling (o s y m : Int) (rows : List Row)
    (ho1 : -720 < o) (ho2 : o ≤ 720) (hm1 : 1 ≤ m) (hm2 : m ≤ 12) :
    ((weeklyDaySorted o s (s + 6) rows).length = 7 ∧
     (weeklyDaySorted o s (s + 6) rows).map (fun e => e.date) =
       (List.range 7).map (fun (i : Nat) => renderIsoDate (s + (i : Int))) ∧
     ∀ e ∈ weeklyDaySorted o s (s + 6) rows, e.count = cntDay rows e.date) ∧
    ((allDays y m rows).length = (daysInMonthJS y m).toNat ∧
     28 ≤ daysInMonthJS y m ∧ daysInMonthJS y m ≤ 31 ∧
     (allDays y m rows).map (fun e => e.date) =
       (List.range (daysInMonthJS y m).toNat).map (fun i => monthKey y m (i + 1)) ∧
     ∀ e ∈ allDays y m rows, e.count = cntDay rows e.date) := by
  obtain ⟨w1, w2, w3⟩ := weeklyDaySorted_spec o s rows
  have w2' : (weeklyDaySorted o s (s + 6) rows).map (fun e => e.date) =
      (List.range 7).map (fun (i : Nat) => renderIsoDate (s + (i : Int))) := by
    rw [w2]
    refine List.map_congr_left ?_
    intro i _
    rw [isoDateOfLocalNoon_id ho1 ho2]
  obtain ⟨a1, a2, a3⟩ := allDays_spec y m rows
  obtain ⟨b1, b2⟩ := daysInMonthJS_bounds y m hm1 hm2
  exact ⟨⟨w1, w2', w3⟩, a1, b1, b2, a2, a3⟩

/-- A row dated on the Saturday 2026-01-03 (the shifted week's end). -/
def rowW : Row :=
  { formattedText := "saturday transcript", timestamp := "2026-01-03 10:00:00",
    app := some "aa.bb", numWords := some 5, duration := some 3 }

/-- C2 (counterexample): in a UTC+13:00 environment (offset 780) the
resolved week of 2026-01-01 is `2025-12-28 … 2026-01-03`, but the gap-filled
daily breakdown built from it carries the keys `2025-12-27 … 2026-01-02`:
the period's last day 2026-01-03 gets no entry, the out-of-period day
2025-12-27 gets one, and a row dated 2026-01-03 is counted in no bucket —
the breakdown does not have one entry per day of the period. -/
theorem gap_filling_offset_counterexample :
    getWeekRange 780 "2026-01-01" = some ("2025-12-28", "2026-01-03") ∧
    parseIsoDate "2025-12-28" = some 20450 ∧
    (weeklyDaySorted 780 20450 (20450 + 6) [rowW]).map (fun e => e.date) =
      ["2025-12-27", "2025-12-28", "2025-12-29", "2025-12-30", "2025-12-31",
       "2026-01-01", "2026-01-02"] ∧
    cntDay [rowW] "2026-01-03" = 1 ∧
    (∀ e ∈ weeklyDaySorted 780 20450 (20450 + 6) [rowW], e.count = 0) :=
  ⟨by decide, by decide, by decide, by decide, by decide⟩

/-- Witness for C2 on the week of Monday 2026-03-02 (day number 20514) and
the month 2026-03, with two events on 2026-03-02: the weekly breakdown has
7 entries (Monday with count 2, the rest 0) and the monthly breakdown has
31 entries. -/
theorem gap_filling_witness :
    (-720 < (0 : Int) ∧ (0 : Int) ≤ 720 ∧ (1 : Int) ≤ 3 ∧ (3 : Int) ≤ 12) ∧
    ((weeklyDaySorted 0 20514 (20514 + 6) [rowA, rowB]).length = 7 ∧
     (weeklyDaySorted 0 20514 (20514 + 6) [rowA, rowB]).map (fun e => e.count) =
       [2, 0, 0, 0, 0, 0, 0] ∧
     (weeklyDaySorted 0 20514 (20514 + 6) [rowA, rowB]).map (fun e => e.date) =
       ["2026-03-02", "2026-03-03", "2026-03-04", "2026-03-05", "2026-03-06",
        "2026-03-07", "2026-03-08"]) ∧
    (allDays 2026 3 [rowA, rowB]).length = 31 ∧
    daysInMonthJS 2026 3 = 31 ∧
    (∀ e ∈ weeklyDaySorted 0 20514 (20514 + 6) [rowA, rowB],
       e.count = cntDay [rowA, rowB] e.date) := by
  have h := gap_filling 0 20514 2026 3 [rowA, rowB] (by norm_num) (by norm_num)
    (by norm_num) (by norm_num)
  exact ⟨⟨by norm_num, by norm_num, by norm_num, by norm_num⟩,
    ⟨h.1.1, by decide, by decide⟩, by decide, by decide, h.1.2.2⟩

/-- Witness for C5 on four valid rows with a 2–2 tie between hours 10 and
11: the sorted entries put hour 10 (the lower of the two maxima) first. -/
theorem peak_hour_lowest_among_maxima_witness :
    (([rowB, rowA, rowB, rowA] : List Row) ≠ [] ∧
      ∀ r ∈ ([rowB, rowA, rowB, rowA] : List Row), (jsGetHours r.timestamp).isSome) ∧
    peakHour [rowB, rowA, rowB, rowA] = some (some 10, 2) ∧
    (∃ h c, peakHour [rowB, rowA, rowB, rowA] = some (some h, c) ∧
      c = cntHour [rowB, rowA, rowB, rowA] (some h) ∧ 0 < c ∧
      (∀ h2 : Nat, cntHour [rowB, rowA, rowB, rowA] (some h2) ≤ c) ∧
      (∀ h2 : Nat, cntHour [rowB, rowA, rowB, rowA] (some h2) = c → h ≤ h2)) := by
  refine ⟨⟨by decide, by decide⟩, by decide, ?_⟩
  exact peak_hour_lowest_among_maxima [rowB, rowA, rowB, rowA] (by decide) (by decide)

/-! ## Claim C6: active days and daily averages -/

/-- C6: `activeDays` counts exactly the month days (1-based) on which at
least one row's timestamp date equals the day key; when it is zero both
averages are 0 (the code short-circuits before dividing); when it is
positive each average `q` is `Math.round(total / activeDays)`: the unique
integer with `2aq ≤ 2·total + a < 2aq + 2a` (nearest integer, half up). -/
theorem active_days_and_averages (y m : Int) (rows : List Row) :
    activeDays y m rows =
      ((List.range (daysInMonthJS y m).toNat).filter
        (fun i => 0 < cntDay rows (monthKey y m (i + 1)))).length ∧
    (activeDays y m rows = 0 →
      avgDictationsPerDay y m rows = 0 ∧ avgWordsPerDay y m rows = 0) ∧
    (0 < activeDays y m rows →
      (2 * activeDays y m rows * avgDictationsPerDay y m rows
          ≤ 2 * totalDictations rows + activeDays y m rows ∧
        2 * totalDictations rows + activeDays y m rows
          < 2 * activeDays y m rows * avgDictationsPerDay y m rows
            + 2 * activeDays y m rows) ∧
      (2 * activeDays y m rows * avgWordsPerDay y m rows
          ≤ 2 * totalWords rows + activeDays y m rows ∧
        2 * totalWords rows + activeDays y m rows
          < 2 * activeDays y m rows * avgWordsPerDay y m rows
            + 2 * activeDays y m rows)) := by
  refine ⟨?_, ?_, ?_⟩
  · unfold activeDays allDays
    rw [List.filter_map, List.length_map]
    congr 1
    refine List.filter_congr ?_
    intro i _
    have hc : ((lookupV (monthKey y m (i + 1)) (dayMap rows)).getD ⟨0, 0, 0, []⟩).count
        = cntDay rows (monthKey y m (i + 1)) := by
      rw [getD_count_eq_elim, dayMap_lookup]
    show decide (0 < ((lookupV (monthKey y m (i + 1)) (dayMap rows)).getD
        ⟨0, 0, 0, []⟩).count) = decide (0 < cntDay rows (monthKey y m (i + 1)))
    rw [hc]
  · intro h
    constructor
    · unfold avgDictationsPerDay
      rw [if_neg (by omega)]
    · unfold avgWordsPerDay
      rw [if_neg (by omega)]
  · intro h
    have ha : 0 < 2 * activeDays y m rows := by omega
    constructor
    · constructor
      · unfold avgDictationsPerDay jsRound
        rw [if_pos h]
        exact Nat.le.intro (Nat.div_add_mod _ _)
      · unfold avgDictationsPerDay jsRound
        rw [if_pos h]
        conv_lhs => rw [← Nat.div_add_mod
          (2 * totalDictations rows + activeDays y m rows) (2 * activeDays y m rows)]
        exact Nat.add_lt_add_left (Nat.mod_lt _ ha) _
    · constructor
      · unfold avgWordsPerDay jsRound
        rw [if_pos h]
        exact Nat.le.intro (Nat.div_add_mod _ _)
      · unfold avgWordsPerDay jsRound
        rw [if_pos h]
        conv_lhs => rw [← Nat.div_add_mod
          (2 * totalWords rows + activeDays y m rows) (2 * activeDays y m rows)]
        exact Nat.add_lt_add_left (Nat.mod_lt _ ha) _

/-- A row with a fixed transcript of 100 words on the given timestamp. -/
def rowOn (ts : String) : Row :=
  { formattedText := "transcript", timestamp := ts, app := some "aa.bb",
    numWords := some 100, duration := some 3 }

/-- Ten identical 100-word rows on each of three days of March 2026. -/
def monthRows : List Row :=
  List.replicate 10 (rowOn "2026-03-02 09:00:00") ++
  List.replicate 10 (rowOn "2026-03-10 09:00:00") ++
  List.replicate 10 (rowOn "2026-03-20 09:00:00")

/-- Witness for C6: the spec's own example (3 active days, 30 dictations,
3000 words) gives averages 10 and 1000; with zero rows both averages are 0. -/
theorem active_days_and_averages_witness :
    (0 < activeDays 2026 3 monthRows ∧ activeDays 2026 3 monthRows = 3 ∧
      totalDictations monthRows = 30 ∧ totalWords monthRows = 3000 ∧
      avgDictationsPerDay 2026 3 monthRows = 10 ∧
      avgWordsPerDay 2026 3 monthRows = 1000) ∧
    2 * activeDays 2026 3 monthRows * avgDictationsPerDay 2026 3 monthRows
      ≤ 2 * totalDictations monthRows + activeDays 2026 3 monthRows ∧
    activeDays 2026 3 ([] : List Row) = 0 ∧
    avgDictationsPerDay 2026 3 ([] : List Row) = 0 ∧
    avgWordsPerDay 2026 3 ([] : List Row) = 0 := by
  have h1 := ((active_days_and_averages 2026 3 monthRows).2.2 (by decide)).1.1
  have h2 := (active_days_and_averages 2026 3 ([] : List Row)).2.1 (by decide)
  exact ⟨⟨by decide, by decide, by decide, by decide, by decide, by decide⟩, h1,
    by decide, h2.1, h2.2⟩

/-! ## Claims C8 and C10: empty-period behavior and output implications -/

/-- The observable outcome of one script run after the store opened
successfully: final exit code, the "no dictations" message if that branch
ran, the path of the HTML document if one was written, and whether the
aggregation/report stage was reached. -/
structure RunOutcome where
  exitCode : Nat
  message : Option String
  documentPath : Option String
  reported : Bool
  deriving Repr, DecidableEq

/-- `scripts/daily-recap.js` after the query: the `rows.length === 0`
branch prints its message and exits 0 before any aggregation; otherwise the
report runs and `--html` writes `Desktop/wispr-recap-<date>.html`. -/
def runDaily (targetDate : String) (flagHTML : Bool) (rows : List Row) : RunOutcome :=
  if rows.length = 0 then
    { exitCode := 0,
      message := some ("No Wispr Flow dictations found for " ++ targetDate ++ "."),
      documentPath := none, reported := false }
  else
    { exitCode := 0, message := none,
      documentPath := if flagHTML then
          some ("Desktop/wispr-recap-" ++ targetDate ++ ".html") else none,
      reported := true }

/-- The weekly script: a reference date `getWeekRange` cannot resolve makes
`toISOString()` throw (uncaught, exit code 1); with zero rows it prints the
message naming `week.start` and exits 0; otherwise the report runs and
`--html` writes `Desktop/wispr-weekly-<week.start>.html`. -/
def runWeekly (o : Int) (refDate : String) (flagHTML : Bool) (rows : List Row) :
    RunOutcome :=
  match getWeekRange o refDate with
  | none => { exitCode := 1, message := none, documentPath := none, reported := false }
  | some (ws, _) =>
    if rows.length = 0 then
      { exitCode := 0,
        message := some ("No Wispr Flow dictations found for week of " ++ ws ++ "."),
        documentPath := none, reported := false }
    else
      { exitCode := 0, message := none,
        documentPath := if flagHTML then
            some ("Desktop/wispr-weekly-" ++ ws ++ ".html") else none,
        reported := true }

/-- The monthly script: analogous, with the message naming
`monthRange.label` and the document named after the requested month. -/
def runMonthly (o : Int) (ym : String) (flagHTML : Bool) (rows : List Row) :
    RunOutcome :=
  match getMonthRange o ym with
  | none => { exitCode := 1, message := none, documentPath := none, reported := false }
  | some mr =>
    if rows.length = 0 then
      { exitCode := 0,
        message := some ("No Wispr Flow dictations found for " ++ mr.label ++ "."),
        documentPath := none, reported := false }
    else
      { exitCode := 0, message := none,
        documentPath := if flagHTML then
            some ("Desktop/wispr-monthly-" ++ ym ++ ".html") else none,
        reported := true }

/-- The outcome of every `rows.length === 0` branch: exit 0, the given
message, no document, no report. -/
def emptyOutcome (msg : String) : RunOutcome :=
  { exitCode := 0, message := some msg, documentPath := none, reported := false }

/-- C8: whenever the store opens but the resolved period matches zero rows,
each script prints its dedicated "No Wispr Flow dictations found …"
message, exits with code 0, writes no document, and never reaches the
report stage. -/
theorem empty_period_reports_and_exits_zero (targetDate refDate ym : String)
    (o : Int) (f1 f2 f3 : Bool) (ws we : String) (mr : MonthRange)
    (hw : getWeekRange o refDate = some (ws, we))
    (hm : getMonthRange o ym = some mr) :
    runDaily targetDate f1 [] =
      emptyOutcome ("No Wispr Flow dictations found for " ++ targetDate ++ ".") ∧
    runWeekly o refDate f2 [] =
      emptyOutcome ("No Wispr Flow dictations found for week of " ++ ws ++ ".") ∧
    runMonthly o ym f3 [] =
      emptyOutcome ("No Wispr Flow dictations found for " ++ mr.label ++ ".") := by
  refine ⟨rfl, ?_, ?_⟩
  · unfold runWeekly
    rw [hw]
    rfl
  · unfold runMonthly
    rw [hm]
    rfl

/-- Witness for C8 at the week of 2026-01-01 and the month 2024-02 in UTC:
all three scripts, handed zero rows, exit 0 with their messages and no
document. -/
theorem empty_period_witness :
    (getWeekRange 0 "2026-01-01" = some ("2025-12-29", "2026-01-04") ∧
      getMonthRange 0 "2024-02" = some ⟨"2024-02-01", "2024-02-29", 2024, 2,
        "February 2024", "Feb", 29⟩) ∧
    runDaily "2026-03-02" false [] =
      emptyOutcome ("No Wispr Flow dictations found for " ++ "2026-03-02" ++ ".") ∧
    runWeekly 0 "2026-01-01" true [] =
      emptyOutcome ("No Wispr Flow dictations found for week of "
        ++ "2025-12-29" ++ ".") ∧
    runMonthly 0 "2024-02" true [] =
      emptyOutcome ("No Wispr Flow dictations found for "
        ++ MonthRange.label ⟨"2024-02-01", "2024-02-29", 2024, 2,
          "February 2024", "Feb", 29⟩ ++ ".") := by
  have hw : getWeekRange 0 "2026-01-01" = some ("2025-12-29", "2026-01-04") := by
    decide
  have hm : getMonthRange 0 "2024-02" = some ⟨"2024-02-01", "2024-02-29", 2024, 2,
      "February 2024", "Feb", 29⟩ := by decide
  have h := empty_period_reports_and_exits_zero "2026-03-02" "2026-01-01" "2024-02" 0
    false true true "2025-12-29" "2026-01-04"
    ⟨"2024-02-01", "2024-02-29", 2024, 2, "February 2024", "Feb", 29⟩ hw hm
  exact ⟨⟨hw, hm⟩, h.1, h.2.1, h.2.2⟩

lemma peakHour_isSome_of_ne_nil (rows : List Row) (h : rows ≠ []) :
    (peakHour rows).isSome = true := by
  have hlen : hourMap rows ≠ [] := by
    intro h0
    have ht := hourMap_total rows
    rw [h0] at ht
    simp [sumCounts] at ht
    have h2 : rows.length = 0 := by omega
    exact h (List.length_eq_zero.mp h2)
  have hperm := (sortByRank_perm (fun (p : Option Nat × Nat) => -(p.2 : Int))
    (hourEntries rows)).trans (hourEntries_perm rows)
  unfold peakHour
  cases hs : sortByRank (fun (p : Option Nat × Nat) => -(p.2 : Int)) (hourEntries rows) with
  | nil =>
    rw [hs] at hperm
    exact absurd hperm.symm.eq_nil hlen
  | cons a t => rfl

/-- C10 (implicit): if any of the three runs reaches its report stage or
writes a document, the loaded row list was non-empty, so
`totalDictations ≥ 1` (every percentage division has a positive
denominator) and the peak-hour entry exists when it is rendered. -/
theorem output_implies_nonempty (o : Int) (targetDate refDate ym : String)
    (f1 f2 f3 : Bool) (rows : List Row)
    (h : (runDaily targetDate f1 rows).reported = true ∨
         (runWeekly o refDate f2 rows).reported = true ∨
         (runMonthly o ym f3 rows).reported = true ∨
         (runDaily targetDate f1 rows).documentPath.isSome = true ∨
         (runWeekly o refDate f2 rows).documentPath.isSome = true ∨
         (runMonthly o ym f3 rows).documentPath.isSome = true) :
    1 ≤ totalDictations rows ∧ (peakHour rows).isSome = true := by
  have hne : rows ≠ [] := by
    intro he
    subst he
    rcases h with h | h | h | h | h | h
    · simp [runDaily] at h
    · unfold runWeekly at h
      cases hg : getWeekRange o refDate with
      | none => rw [hg] at h; simp at h
      | some p =>
        rcases p with ⟨ws, we⟩
        rw [hg] at h
        simp at h
    · unfold runMonthly at h
      cases hg : getMonthRange o ym with
      | none => rw [hg] at h; simp at h
      | some mr => rw [hg] at h; simp at h
    · simp [runDaily] at h
    · unfold runWeekly at h
      cases hg : getWeekRange o refDate with
      | none => rw [hg] at h; simp at h
      | some p =>
        rcases p with ⟨ws, we⟩
        rw [hg] at h
        simp at h
    · unfold runMonthly at h
      cases hg : getMonthRange o ym with
      | none => rw [hg] at h; simp at h
      | some mr => rw [hg] at h; simp at h
  constructor
  · unfold totalDictations
    cases rows with
    | nil => exact absurd rfl hne
    | cons a t =>
      show 1 ≤ t.length + 1
      omega
  · exact peakHour_isSome_of_ne_nil rows hne

/-- Witness for C10: a daily run over one row reaches the report stage and
writes a document, and indeed `totalDictations = 1` with a peak hour. -/
theorem output_implies_nonempty_witness :
    (runDaily "2026-03-02" true [rowA]).reported = true ∧
    (runDaily "2026-03-02" true [rowA]).documentPath =
      some ("Desktop/wispr-recap-" ++ "2026-03-02" ++ ".html") ∧
    1 ≤ totalDictations [rowA] ∧ (peakHour [rowA]).isSome = true := by
  have h := output_implies_nonempty 0 "2026-03-02" "2026-03-02" "2026-03"
    true true true [rowA] (Or.inl (by decide))
  exact ⟨by decide, by decide, h.1, h.2⟩

end WisprRecap
